import Mathlib

set_option maxHeartbeats 1000000

/-!
Verification of the VoltDB large temp table block engine
(`src/ee/storage/LargeTempTableBlock.h` and its block-sorter test file).

The development embeds, at byte level, the block storage buffer and the
in-place tuple sorter `LTTBlockSorter` (introspective quicksort with a
Lomuto partition, hard-coded insertion sorts for sizes 2-4, and a raw
`memcpy`-based element swap), and, at the natural granularity of each
component, the block iterator `LttBlockIterator`, the pin/unpin lifecycle,
tuple insertion, and the release/relocate round trip.
-/

/-! ## Byte-level model of block storage and the sorter -/

/-- Block storage modelled as a byte buffer: a map from byte offset to byte
value.  A block's tuples occupy slots of `len` bytes each at the low end of
the buffer; non-inlined data lives at high offsets. -/
abbrev Store := Nat → Nat

/-- The `memcpy` primitive: copy `len` bytes read from `src` starting at
`srcOff` onto `dst` starting at `dstOff`. -/
def memcpy (dst : Store) (dstOff : Nat) (src : Store) (srcOff : Nat) (len : Nat) : Store :=
  fun b => if dstOff ≤ b ∧ b < dstOff + len then src (srcOff + (b - dstOff)) else dst b

/-- The raw bytes of the tuple stored in slot `i`: `len` bytes starting at
byte offset `i * len` (`len` is the tuple length including the status
byte). -/
def tupleAt (s : Store) (len i : Nat) : List Nat :=
  (List.range len).map fun o => s (i * len + o)

/-- The tuples in slots `lo, lo+1, ..., lo+n-1`, in slot order. -/
def tuplesOn (s : Store) (len lo n : Nat) : List (List Nat) :=
  (List.range' lo n).map (tupleAt s len)

/-- Sorter state: the block bytes together with ghost counters recording the
number of comparator invocations and of calls to the element swap performed
so far.  The counters are observers only; they never influence the bytes. -/
structure SortSt where
  store : Store
  compares : Nat
  swaps : Nat

/-- Record one comparator invocation (ghost accounting only). -/
def bumpCmp (st : SortSt) : SortSt :=
  { st with compares := st.compares + 1 }

namespace LTTBlockSorter

/-- `LTTBlockSorter::swap`: exchange the raw tuple bodies in slots `i` and
`j` with three `memcpy`s through a schema-sized scratch buffer, after the
source's address-inequality guard (`&t0 != &t1`, i.e. the slots start at
different byte offsets). -/
def swap (s : Store) (len i j : Nat) : Store :=
  if i * len = j * len then s
  else
    memcpy (memcpy s (i * len) s (j * len) len) (j * len)
      (memcpy (fun _ => 0) 0 s (i * len) len) 0 len

end LTTBlockSorter

/-- Perform one call of `LTTBlockSorter::swap` on the sorter state (and count
it). -/
def doSwap (len : Nat) (st : SortSt) (i j : Nat) : SortSt :=
  { store := LTTBlockSorter.swap st.store len i j
    compares := st.compares
    swaps := st.swaps + 1 }

namespace LTTBlockSorter

/-- The Lomuto partition loop of `LTTBlockSorter::sort`:
`for (j = 0; j < numElems - 1; ++j) if (cmp(*it, *pivot)) { ++i; swap(*it, beginIt[i]); }`.
Here `j` and `cnt` are the absolute slot index and the running count of
less-than-pivot elements (`cnt = i + 1` for the source's `i`), `p` is the
pivot slot (`endIt - 1`), and `rem` is the number of loop iterations left
(`p - j`). -/
def lomutoGo (cmp : List Nat → List Nat → Bool) (len lo p : Nat) :
    SortSt → Nat → Nat → Nat → SortSt × Nat
  | st, _, cnt, 0 => (st, cnt)
  | st, j, cnt, rem + 1 =>
    if cmp (tupleAt st.store len j) (tupleAt st.store len p) then
      lomutoGo cmp len lo p (doSwap len (bumpCmp st) j (lo + cnt)) (j + 1) (cnt + 1) rem
    else
      lomutoGo cmp len lo p (bumpCmp st) (j + 1) cnt rem

/-- The full Lomuto partition loop, from `j = beginIt` (absolute slot `lo`)
up to the pivot slot `p`.  Returns the final state and the count of
less-than-pivot elements. -/
def lomuto (cmp : List Nat → List Nat → Bool) (len : Nat) (st : SortSt) (lo p : Nat) :
    SortSt × Nat :=
  lomutoGo cmp len lo p st lo 0 (p - lo)

/-- The pivot-placement step after the partition loop:
`++i; if (cmp(*pivot, beginIt[i])) swap(*pivot, beginIt[i]); pivot = beginIt + i;`.
Returns the updated state and the final pivot slot `lo + cnt`. -/
def partitionStep (cmp : List Nat → List Nat → Bool) (len : Nat) (st : SortSt) (lo hi : Nat) :
    SortSt × Nat :=
  let r := lomuto cmp len st lo (hi - 1)
  let st2 :=
    if cmp (tupleAt r.1.store len (hi - 1)) (tupleAt r.1.store len (lo + r.2)) then
      doSwap len (bumpCmp r.1) (hi - 1) (lo + r.2)
    else bumpCmp r.1
  (st2, lo + r.2)

/-- The inner `while (j > 0 && cmp(beginIt[j], beginIt[j-1])) { swap(...); --j; }`
loop of `LTTBlockSorter::insertionSort`.  The moving element starts at slot
`lo + j`; the short-circuit means no comparator call happens once `j = 0`. -/
def insertionSortInner (cmp : List Nat → List Nat → Bool) (len : Nat) :
    SortSt → Nat → Nat → SortSt
  | st, _, 0 => st
  | st, lo, j + 1 =>
    if cmp (tupleAt st.store len (lo + j + 1)) (tupleAt st.store len (lo + j)) then
      insertionSortInner cmp len (doSwap len (bumpCmp st) (lo + j) (lo + j + 1)) lo j
    else bumpCmp st

/-- The outer `for (i = 0; i < N; ++i)` loop of
`LTTBlockSorter::insertionSort`; `rem` is the number of iterations left
(`N - i`). -/
def insertionSortSweep (cmp : List Nat → List Nat → Bool) (len lo : Nat) :
    SortSt → Nat → Nat → SortSt
  | st, _, 0 => st
  | st, i, rem + 1 =>
    insertionSortSweep cmp len lo (insertionSortInner cmp len st lo i) (i + 1) rem

/-- `LTTBlockSorter::insertionSort<N>` over the `n` slots starting at
`lo`. -/
def insertionSort (cmp : List Nat → List Nat → Bool) (len : Nat) (st : SortSt) (lo n : Nat) :
    SortSt :=
  insertionSortSweep cmp len lo st 0 n

end LTTBlockSorter

/-- Helper bound used for the sorter's termination: the partition loop
performs at most one count increment per iteration. -/
theorem lomutoGo_cnt_le (cmp : List Nat → List Nat → Bool) (len lo p : Nat) :
    ∀ rem st j cnt, (LTTBlockSorter.lomutoGo cmp len lo p st j cnt rem).2 ≤ cnt + rem := by
  intro rem
  induction rem with
  | zero => intro st j cnt; simp [LTTBlockSorter.lomutoGo]
  | succ m ih =>
    intro st j cnt
    simp only [LTTBlockSorter.lomutoGo]
    split
    · exact le_trans (ih _ _ _) (by omega)
    · exact le_trans (ih _ _ _) (by omega)

/-- The pivot slot returned by the partition step lies in `[lo, hi)` whenever
the range is nonempty. -/
theorem partitionStep_pv_bounds (cmp : List Nat → List Nat → Bool) (len : Nat) (st : SortSt)
    (lo hi : Nat) (h : lo < hi) :
    lo ≤ (LTTBlockSorter.partitionStep cmp len st lo hi).2 ∧
      (LTTBlockSorter.partitionStep cmp len st lo hi).2 < hi := by
  have hb := lomutoGo_cnt_le cmp len lo (hi - 1) ((hi - 1) - lo) st lo 0
  simp only [LTTBlockSorter.partitionStep, LTTBlockSorter.lomuto]
  omega

namespace LTTBlockSorter

/-- `LTTBlockSorter::sort` over the slot range `[lo, hi)`: return at sizes 0
and 1, hard-coded insertion sort at sizes 2, 3 and 4, otherwise a Lomuto
partition on the last-slot pivot followed by a recursive call on the smaller
partition and a tail-recursive continuation on the larger one. -/
def sort (cmp : List Nat → List Nat → Bool) (len : Nat) (st : SortSt) (lo hi : Nat) : SortSt :=
  match hn : hi - lo with
  | 0 => st
  | 1 => st
  | 2 => insertionSort cmp len st lo 2
  | 3 => insertionSort cmp len st lo 3
  | 4 => insertionSort cmp len st lo 4
  | _ + 5 =>
    if (partitionStep cmp len st lo hi).2 - lo > hi - ((partitionStep cmp len st lo hi).2 + 1) then
      sort cmp len (sort cmp len (partitionStep cmp len st lo hi).1
        ((partitionStep cmp len st lo hi).2 + 1) hi) lo (partitionStep cmp len st lo hi).2
    else
      sort cmp len (sort cmp len (partitionStep cmp len st lo hi).1 lo
        (partitionStep cmp len st lo hi).2) ((partitionStep cmp len st lo hi).2 + 1) hi
termination_by hi - lo
decreasing_by
  all_goals
    have hpv := partitionStep_pv_bounds cmp len st lo hi (by omega)
    omega

end LTTBlockSorter

/-! ## Laws of the element swap -/

/-- A byte offset `k * len + o` (with `o < len`) lies in the slot-`q` byte
range exactly when `k = q`: tuple slots are pairwise disjoint. -/
theorem slot_hit_iff {len : Nat} (_hlen : 0 < len) {o : Nat} (ho : o < len) (k q : Nat) :
    (q * len ≤ k * len + o ∧ k * len + o < q * len + len) ↔ k = q := by
  constructor
  · rintro ⟨h1, h2⟩
    have hq : q * len < (k + 1) * len := by
      have : (k + 1) * len = k * len + len := by ring
      omega
    have hk : k * len < (q + 1) * len := by
      have : (q + 1) * len = q * len + len := by ring
      omega
    have hq2 := Nat.lt_of_mul_lt_mul_right hq
    have hk2 := Nat.lt_of_mul_lt_mul_right hk
    omega
  · rintro rfl
    omega

/-- Reading a slot after `LTTBlockSorter::swap`: slot `i` now holds the old
slot `j`, slot `j` the old slot `i`, and every other slot is unchanged. -/
theorem tupleAt_swap (s : Store) (len i j k : Nat) :
    tupleAt (LTTBlockSorter.swap s len i j) len k =
      if k = i then tupleAt s len j else if k = j then tupleAt s len i else tupleAt s len k := by
  unfold LTTBlockSorter.swap
  split
  · rename_i hguard
    have hij : tupleAt s len i = tupleAt s len j := by
      unfold tupleAt
      apply List.map_congr_left
      intro o _
      rw [hguard]
    split
    · rename_i hk; subst hk; rw [hij]
    · split
      · rename_i hk; subst hk; rw [hij]
      · rfl
  · rename_i hguard
    have hlen : 0 < len := by
      rcases Nat.eq_zero_or_pos len with h | h
      · exact absurd (by rw [h]; ring) hguard
      · exact h
    have hij : i ≠ j := by rintro rfl; exact hguard rfl
    by_cases hki : k = i
    · subst hki
      simp only [if_pos rfl]
      unfold tupleAt
      apply List.map_congr_left
      intro o ho
      have holt : o < len := List.mem_range.mp ho
      unfold memcpy
      rw [if_neg, if_pos, Nat.add_sub_cancel_left]
      · exact (slot_hit_iff hlen holt k k).mpr rfl
      · intro hhit
        exact hij ((slot_hit_iff hlen holt k j).mp hhit)
    · by_cases hkj : k = j
      · subst hkj
        simp only [if_neg hki, if_pos rfl]
        unfold tupleAt
        apply List.map_congr_left
        intro o ho
        have holt : o < len := List.mem_range.mp ho
        unfold memcpy
        rw [if_pos ((slot_hit_iff hlen holt k k).mpr rfl), Nat.add_sub_cancel_left,
          if_pos (by omega)]
        congr 1
        omega
      · simp only [if_neg hki, if_neg hkj]
        unfold tupleAt
        apply List.map_congr_left
        intro o ho
        have holt : o < len := List.mem_range.mp ho
        unfold memcpy
        rw [if_neg, if_neg]
        · intro hhit
          exact hki ((slot_hit_iff hlen holt k i).mp hhit)
        · intro hhit
          exact hkj ((slot_hit_iff hlen holt k j).mp hhit)

/-- Frame law of the element swap: any byte outside the two exchanged slots
is untouched. -/
theorem swap_frame (s : Store) (len i j b : Nat)
    (hbi : ¬ (i * len ≤ b ∧ b < i * len + len))
    (hbj : ¬ (j * len ≤ b ∧ b < j * len + len)) :
    LTTBlockSorter.swap s len i j b = s b := by
  unfold LTTBlockSorter.swap
  split
  · rfl
  · unfold memcpy
    rw [if_neg hbj, if_neg hbi]

/-! ## Permutation of slot values under point updates and swaps -/

/-- Updating a function at one point `x` of a duplicate-free index list and
consing the old value is a permutation of consing the new value. -/
theorem map_update_point_perm {β : Type} (f : Nat → β) (x : Nat) (v : β) :
    ∀ t : List Nat, x ∈ t → t.Nodup →
      (f x :: t.map fun k => if k = x then v else f k).Perm (v :: t.map f) := by
  intro t
  induction t with
  | nil => intro hx; exact absurd hx (List.not_mem_nil x)
  | cons b t2 ih =>
    intro hx hnd
    rcases List.nodup_cons.mp hnd with ⟨hbt, hnd2⟩
    by_cases hbx : b = x
    · subst hbx
      simp only [List.map_cons, if_pos rfl]
      have hmap : (t2.map fun k => if k = b then v else f k) = t2.map f := by
        apply List.map_congr_left
        intro k hk
        rw [if_neg]
        rintro rfl
        exact hbt hk
      rw [hmap]
      exact List.Perm.swap v (f b) (t2.map f)
    · have hx2 : x ∈ t2 := by
        rcases List.mem_cons.mp hx with h | h
        · exact absurd h.symm hbx
        · exact h
      simp only [List.map_cons, if_neg hbx]
      exact ((List.Perm.swap (f b) (f x) _).trans
        (List.Perm.cons (f b) (ih hx2 hnd2))).trans (List.Perm.swap v (f b) (t2.map f))

/-- Mapping the two-point exchange of `f` at `i` and `j` over a
duplicate-free index list containing both is a permutation of mapping
`f`. -/
theorem map_swapF_perm {β : Type} (f : Nat → β) (i j : Nat) :
    ∀ l : List Nat, i ∈ l → j ∈ l → l.Nodup →
      (l.map fun k => if k = i then f j else if k = j then f i else f k).Perm (l.map f) := by
  intro l
  by_cases hij : i = j
  · subst hij
    intro _ _ _
    have hmap : (l.map fun k => if k = i then f i else if k = i then f i else f k) = l.map f := by
      apply List.map_congr_left
      intro k _
      by_cases hk : k = i
      · subst hk; simp
      · simp [hk]
    rw [hmap]
  · induction l with
    | nil => intro hi; exact absurd hi (List.not_mem_nil i)
    | cons a t ih =>
      intro hi hj hnd
      rcases List.nodup_cons.mp hnd with ⟨hat, hnd2⟩
      by_cases hai : a = i
      · subst hai
        have hjt : j ∈ t := by
          rcases List.mem_cons.mp hj with h | h
          · exact absurd h.symm hij
          · exact h
        simp only [List.map_cons, if_pos rfl]
        have hmap : (t.map fun k => if k = a then f j else if k = j then f a else f k) =
            t.map fun k => if k = j then f a else f k := by
          apply List.map_congr_left
          intro k hk
          rw [if_neg]
          rintro rfl
          exact hat hk
        rw [hmap]
        exact map_update_point_perm f j (f a) t hjt hnd2
      · by_cases haj : a = j
        · subst haj
          have hit : i ∈ t := by
            rcases List.mem_cons.mp hi with h | h
            · exact absurd h.symm hai
            · exact h
          simp only [List.map_cons, if_neg hai, if_pos rfl]
          have hmap : (t.map fun k => if k = i then f a else if k = a then f i else f k) =
              t.map fun k => if k = i then f a else f k := by
            apply List.map_congr_left
            intro k hk
            by_cases hki : k = i
            · rw [if_pos hki, if_pos hki]
            · rw [if_neg hki, if_neg hki, if_neg]
              rintro rfl
              exact hat hk
          rw [hmap]
          exact map_update_point_perm f i (f a) t hit hnd2
        · have hit : i ∈ t := by
            rcases List.mem_cons.mp hi with h | h
            · exact absurd h.symm hai
            · exact h
          have hjt : j ∈ t := by
            rcases List.mem_cons.mp hj with h | h
            · exact absurd h.symm haj
            · exact h
          simp only [List.map_cons, if_neg hai, if_neg haj]
          exact List.Perm.cons (f a) (ih hit hjt hnd2)

/-- Swapping two slots inside `[lo, lo+n)` permutes the tuple values on that
slot range. -/
theorem tuplesOn_swap_perm (s : Store) (len i j lo n : Nat)
    (hi1 : lo ≤ i) (hi2 : i < lo + n) (hj1 : lo ≤ j) (hj2 : j < lo + n) :
    (tuplesOn (LTTBlockSorter.swap s len i j) len lo n).Perm (tuplesOn s len lo n) := by
  unfold tuplesOn
  have hmap : ((List.range' lo n).map (tupleAt (LTTBlockSorter.swap s len i j) len)) =
      (List.range' lo n).map fun k =>
        if k = i then tupleAt s len j else if k = j then tupleAt s len i else tupleAt s len k := by
    apply List.map_congr_left
    intro k _
    exact tupleAt_swap s len i j k
  rw [hmap]
  exact map_swapF_perm (tupleAt s len) i j (List.range' lo n)
    (List.mem_range'_1.mpr ⟨hi1, hi2⟩) (List.mem_range'_1.mpr ⟨hj1, hj2⟩)
    (List.nodup_range' lo n)

/-- Splitting a slot range at an interior segment `[a, b)`. -/
theorem range'_split (lo n a b : Nat) (h1 : lo ≤ a) (h2 : a ≤ b) (h3 : b ≤ lo + n) :
    List.range' lo n =
      List.range' lo (a - lo) ++ List.range' a (b - a) ++ List.range' b (lo + n - b) := by
  have e1 := List.range'_append lo (a - lo) ((lo + n) - a) 1
  have e2 := List.range'_append a (b - a) ((lo + n) - b) 1
  simp only [Nat.one_mul] at e1 e2
  have ha : lo + (a - lo) = a := by omega
  have hb : a + (b - a) = b := by omega
  rw [ha] at e1
  rw [hb] at e2
  rw [List.append_assoc]
  have hm : lo + n - a = lo + n - b + (b - a) := by omega
  rw [hm] at e1
  rw [← e2] at e1
  have hn : lo + n - b + (b - a) + (a - lo) = n := by omega
  rw [hn] at e1
  exact e1.symm

/-- A permutation of the tuple values on a segment `[a, b)` together with
slotwise equality outside the segment yields a permutation on any enclosing
slot range. -/
theorem tuplesOn_perm_extend (s2 s1 : Store) (len lo n a b : Nat)
    (h1 : lo ≤ a) (h2 : a ≤ b) (h3 : b ≤ lo + n)
    (hmid : (tuplesOn s2 len a (b - a)).Perm (tuplesOn s1 len a (b - a)))
    (hout : ∀ k, k < a ∨ b ≤ k → tupleAt s2 len k = tupleAt s1 len k) :
    (tuplesOn s2 len lo n).Perm (tuplesOn s1 len lo n) := by
  unfold tuplesOn
  rw [range'_split lo n a b h1 h2 h3]
  rw [List.map_append, List.map_append, List.map_append, List.map_append]
  apply List.Perm.append
  apply List.Perm.append
  · have : (List.range' lo (a - lo)).map (tupleAt s2 len) =
        (List.range' lo (a - lo)).map (tupleAt s1 len) := by
      apply List.map_congr_left
      intro k hk
      have := List.mem_range'_1.mp hk
      exact hout k (Or.inl (by omega))
    rw [this]
  · exact hmid
  · have : (List.range' b (lo + n - b)).map (tupleAt s2 len) =
        (List.range' b (lo + n - b)).map (tupleAt s1 len) := by
      apply List.map_congr_left
      intro k hk
      have := List.mem_range'_1.mp hk
      exact hout k (Or.inr (by omega))
    rw [this]

/-- A byte outside `[lo*len, p*len)` lies outside the byte range of every
slot `k` with `lo ≤ k < p`. -/
theorem slot_outside {len k lo p b : Nat} (hk1 : lo ≤ k) (hk2 : k < p)
    (hb : b < lo * len ∨ p * len ≤ b) : ¬ (k * len ≤ b ∧ b < k * len + len) := by
  rcases hb with hb | hb
  · rintro ⟨hc, -⟩
    have hm : lo * len ≤ k * len := Nat.mul_le_mul_right len hk1
    omega
  · rintro ⟨-, hc⟩
    have hm : (k + 1) * len ≤ p * len := Nat.mul_le_mul_right len hk2
    have he : (k + 1) * len = k * len + len := by ring
    omega

/-- The partition loop only writes bytes of slots in `[lo, p)`. -/
theorem lomutoGo_frame (cmp : List Nat → List Nat → Bool) (len lo p : Nat) :
    ∀ rem st j cnt, lo + cnt ≤ j → j + rem ≤ p →
      ∀ b, b < lo * len ∨ p * len ≤ b →
        (LTTBlockSorter.lomutoGo cmp len lo p st j cnt rem).1.store b = st.store b := by
  intro rem
  induction rem with
  | zero => intro st j cnt _ _ b _; rfl
  | succ m ih =>
    intro st j cnt hcnt hrem b hb
    simp only [LTTBlockSorter.lomutoGo]
    by_cases hc : cmp (tupleAt st.store len j) (tupleAt st.store len p) = true
    · rw [if_pos hc]
      rw [ih _ _ _ (by omega) (by omega) b hb]
      exact swap_frame st.store len j (lo + cnt) b
        (slot_outside (by omega) (by omega) hb) (slot_outside (by omega) (by omega) hb)
    · rw [if_neg hc]
      exact ih _ _ _ (by omega) (by omega) b hb

/-- The partition loop permutes the tuple values on the slot range
`[lo, p)`. -/
theorem lomutoGo_perm (cmp : List Nat → List Nat → Bool) (len lo p : Nat) :
    ∀ rem st j cnt, lo + cnt ≤ j → j + rem ≤ p →
      (tuplesOn (LTTBlockSorter.lomutoGo cmp len lo p st j cnt rem).1.store len lo (p - lo)).Perm
        (tuplesOn st.store len lo (p - lo)) := by
  intro rem
  induction rem with
  | zero => intro st j cnt _ _; exact List.Perm.refl _
  | succ m ih =>
    intro st j cnt hcnt hrem
    simp only [LTTBlockSorter.lomutoGo]
    by_cases hc : cmp (tupleAt st.store len j) (tupleAt st.store len p) = true
    · rw [if_pos hc]
      exact (ih _ _ _ (by omega) (by omega)).trans
        (tuplesOn_swap_perm st.store len j (lo + cnt) lo (p - lo)
          (by omega) (by omega) (by omega) (by omega))
    · rw [if_neg hc]
      exact ih _ _ _ (by omega) (by omega)

/-- The Lomuto partition postcondition: afterwards the slots below
`lo + cnt` all compare strictly below the pivot value, the slots from
`lo + cnt` up to `p` do not, and the pivot slot is untouched. -/
theorem lomutoGo_partition (cmp : List Nat → List Nat → Bool) (len lo p : Nat) :
    ∀ rem st j cnt, lo + cnt ≤ j → j + rem = p →
      (∀ k, lo ≤ k → k < lo + cnt →
        cmp (tupleAt st.store len k) (tupleAt st.store len p) = true) →
      (∀ k, lo + cnt ≤ k → k < j →
        cmp (tupleAt st.store len k) (tupleAt st.store len p) = false) →
      (∀ k, lo ≤ k → k < lo + (LTTBlockSorter.lomutoGo cmp len lo p st j cnt rem).2 →
        cmp (tupleAt (LTTBlockSorter.lomutoGo cmp len lo p st j cnt rem).1.store len k)
          (tupleAt st.store len p) = true) ∧
      (∀ k, lo + (LTTBlockSorter.lomutoGo cmp len lo p st j cnt rem).2 ≤ k → k < p →
        cmp (tupleAt (LTTBlockSorter.lomutoGo cmp len lo p st j cnt rem).1.store len k)
          (tupleAt st.store len p) = false) ∧
      tupleAt (LTTBlockSorter.lomutoGo cmp len lo p st j cnt rem).1.store len p =
        tupleAt st.store len p := by
  intro rem
  induction rem with
  | zero =>
    intro st j cnt hcnt hrem hA hB
    refine ⟨fun k hk1 hk2 => hA k hk1 hk2, fun k hk1 hk2 => hB k hk1 (by omega), rfl⟩
  | succ m ih =>
    intro st j cnt hcnt hrem hA hB
    have hjp : j < p := by omega
    simp only [LTTBlockSorter.lomutoGo]
    by_cases hc : cmp (tupleAt st.store len j) (tupleAt st.store len p) = true
    · rw [if_pos hc]
      have hstore : (doSwap len (bumpCmp st) j (lo + cnt)).store =
          LTTBlockSorter.swap st.store len j (lo + cnt) := rfl
      have hswap : ∀ k, tupleAt (LTTBlockSorter.swap st.store len j (lo + cnt)) len k =
          if k = j then tupleAt st.store len (lo + cnt)
          else if k = lo + cnt then tupleAt st.store len j else tupleAt st.store len k :=
        fun k => tupleAt_swap st.store len j (lo + cnt) k
      have hp : tupleAt (LTTBlockSorter.swap st.store len j (lo + cnt)) len p =
          tupleAt st.store len p := by
        rw [hswap p, if_neg (by omega), if_neg (by omega)]
      have hA2 : ∀ k, lo ≤ k → k < lo + (cnt + 1) →
          cmp (tupleAt (doSwap len (bumpCmp st) j (lo + cnt)).store len k)
            (tupleAt (doSwap len (bumpCmp st) j (lo + cnt)).store len p) = true := by
        intro k hk1 hk2
        rw [hstore, hp, hswap k]
        by_cases hkj : k = j
        · rw [if_pos hkj]
          by_cases hje : j = lo + cnt
          · rw [← hje]; exact hc
          · exact hA (lo + cnt) (by omega) (by omega)
        · rw [if_neg hkj]
          by_cases hke : k = lo + cnt
          · rw [if_pos hke]; exact hc
          · rw [if_neg hke]
            exact hA k hk1 (by omega)
      have hB2 : ∀ k, lo + (cnt + 1) ≤ k → k < j + 1 →
          cmp (tupleAt (doSwap len (bumpCmp st) j (lo + cnt)).store len k)
            (tupleAt (doSwap len (bumpCmp st) j (lo + cnt)).store len p) = false := by
        intro k hk1 hk2
        rw [hstore, hp, hswap k]
        by_cases hkj : k = j
        · rw [if_pos hkj]
          exact hB (lo + cnt) (by omega) (by omega)
        · rw [if_neg hkj, if_neg (by omega)]
          exact hB k (by omega) (by omega)
      have hres := ih (doSwap len (bumpCmp st) j (lo + cnt)) (j + 1) (cnt + 1)
        (by omega) (by omega) hA2 hB2
      have hpres : tupleAt (doSwap len (bumpCmp st) j (lo + cnt)).store len p =
          tupleAt st.store len p := by rw [hstore]; exact hp
      rw [hpres] at hres
      exact hres
    · rw [if_neg hc]
      have hcf : cmp (tupleAt st.store len j) (tupleAt st.store len p) = false :=
        Bool.eq_false_iff.mpr hc
      have hB2 : ∀ k, lo + cnt ≤ k → k < j + 1 →
          cmp (tupleAt (bumpCmp st).store len k) (tupleAt (bumpCmp st).store len p) = false := by
        intro k hk1 hk2
        by_cases hkj : k = j
        · subst hkj; exact hcf
        · exact hB k hk1 (by omega)
      exact ih (bumpCmp st) (j + 1) cnt (by omega) (by omega)
        (fun k hk1 hk2 => hA k hk1 hk2) hB2

/-! ## Strict weak orderings -/

/-- A comparator is a strict weak ordering: irreflexive, transitive, and
with transitive incomparability (the C++ `Compare` requirement). -/
structure IsSWO (cmp : List Nat → List Nat → Bool) : Prop where
  irrefl : ∀ x, cmp x x = false
  trans : ∀ x y z, cmp x y = true → cmp y z = true → cmp x z = true
  equivTrans : ∀ x y z, cmp x y = false → cmp y x = false → cmp y z = false →
    cmp z y = false → cmp x z = false ∧ cmp z x = false

/-- Asymmetry, derived from irreflexivity and transitivity. -/
theorem IsSWO.asymm {cmp : List Nat → List Nat → Bool} (h : IsSWO cmp) {x y : List Nat}
    (hxy : cmp x y = true) : cmp y x = false := by
  cases hyx : cmp y x
  · rfl
  · have hxx := h.trans x y x hxy hyx
    rw [h.irrefl x] at hxx
    exact absurd hxx (by decide)

/-- If `x` is below `y` and `y` is equivalent to `z` then `x` is below
`z`. -/
theorem IsSWO.lt_of_lt_equiv {cmp : List Nat → List Nat → Bool} (h : IsSWO cmp)
    {x y z : List Nat} (hxy : cmp x y = true) (h1 : cmp y z = false) (h2 : cmp z y = false) :
    cmp x z = true := by
  cases hxz : cmp x z
  · cases hzx : cmp z x
    · have heq := h.equivTrans x z y hxz hzx h2 h1
      rw [heq.1] at hxy
      exact absurd hxy (by decide)
    · have hzy := h.trans z x y hzx hxy
      rw [h2] at hzy
      exact absurd hzy (by decide)
  · rfl

/-- If `x` is not below an element equivalent to `y` then it is not below
`y` either. -/
theorem IsSWO.not_lt_of_not_lt_equiv {cmp : List Nat → List Nat → Bool} (h : IsSWO cmp)
    {x y z : List Nat} (hxy : cmp x y = false) (h1 : cmp y z = false) (h2 : cmp z y = false) :
    cmp x z = false := by
  cases hxz : cmp x z
  · rfl
  · have := h.lt_of_lt_equiv hxz h2 h1
    rw [hxy] at this
    exact absurd this (by decide)

/-- A frame of bytes outside `[lo*len, hi*len)` gives equal tuple reads for
every slot outside `[lo, hi)`. -/
theorem tupleAt_congr_outside (s2 s1 : Store) (len lo hi : Nat)
    (h : ∀ b, b < lo * len ∨ hi * len ≤ b → s2 b = s1 b) :
    ∀ k, k < lo ∨ hi ≤ k → tupleAt s2 len k = tupleAt s1 len k := by
  intro k hk
  unfold tupleAt
  apply List.map_congr_left
  intro o ho
  have holt : o < len := List.mem_range.mp ho
  apply h
  rcases hk with hk | hk
  · left
    have : (k + 1) * len ≤ lo * len := Nat.mul_le_mul_right len hk
    have he : (k + 1) * len = k * len + len := by ring
    omega
  · right
    have : hi * len ≤ k * len := Nat.mul_le_mul_right len hk
    omega

/-- The partition step only writes bytes of slots in `[lo, hi)`. -/
theorem partitionStep_frame (cmp : List Nat → List Nat → Bool) (len : Nat) (st : SortSt)
    (lo hi : Nat) (h : lo < hi) :
    ∀ b, b < lo * len ∨ hi * len ≤ b →
      (LTTBlockSorter.partitionStep cmp len st lo hi).1.store b = st.store b := by
  intro b hb
  have hcle := lomutoGo_cnt_le cmp len lo (hi - 1) ((hi - 1) - lo) st lo 0
  have hb2 : b < lo * len ∨ (hi - 1) * len ≤ b := by
    rcases hb with hb | hb
    · exact Or.inl hb
    · right
      have : (hi - 1) * len ≤ hi * len := Nat.mul_le_mul_right len (by omega)
      omega
  have hfr : (LTTBlockSorter.lomutoGo cmp len lo (hi - 1) st lo 0 ((hi - 1) - lo)).1.store b =
      st.store b :=
    lomutoGo_frame cmp len lo (hi - 1) ((hi - 1) - lo) st lo 0 (by omega) (by omega) b hb2
  simp only [LTTBlockSorter.partitionStep, LTTBlockSorter.lomuto]
  split
  · show (LTTBlockSorter.swap _ len (hi - 1) _) b = st.store b
    rw [swap_frame _ len (hi - 1) _ b
      (slot_outside (by omega) (by omega) hb)
      (slot_outside (by omega) (by omega) hb)]
    exact hfr
  · exact hfr

/-- The partition step permutes the tuple values on the slot range
`[lo, hi)`. -/
theorem partitionStep_perm (cmp : List Nat → List Nat → Bool) (len : Nat) (st : SortSt)
    (lo hi : Nat) (h : lo < hi) :
    (tuplesOn (LTTBlockSorter.partitionStep cmp len st lo hi).1.store len lo (hi - lo)).Perm
      (tuplesOn st.store len lo (hi - lo)) := by
  have hcle := lomutoGo_cnt_le cmp len lo (hi - 1) ((hi - 1) - lo) st lo 0
  have hmid := lomutoGo_perm cmp len lo (hi - 1) ((hi - 1) - lo) st lo 0 (by omega) (by omega)
  have hext : (tuplesOn (LTTBlockSorter.lomutoGo cmp len lo (hi - 1) st lo 0
      ((hi - 1) - lo)).1.store len lo (hi - lo)).Perm (tuplesOn st.store len lo (hi - lo)) := by
    apply tuplesOn_perm_extend _ _ len lo (hi - lo) lo (hi - 1) (by omega) (by omega) (by omega)
      hmid
    intro k hk
    exact tupleAt_congr_outside _ _ len lo (hi - 1)
      (fun b hb => lomutoGo_frame cmp len lo (hi - 1) ((hi - 1) - lo) st lo 0
        (by omega) (by omega) b hb) k hk
  simp only [LTTBlockSorter.partitionStep, LTTBlockSorter.lomuto]
  split
  · show (tuplesOn (LTTBlockSorter.swap _ len (hi - 1) _) len lo (hi - lo)).Perm _
    exact (tuplesOn_swap_perm _ len (hi - 1) _ lo (hi - lo)
      (by omega) (by omega) (by omega) (by omega)).trans hext
  · exact hext

/-- The partition postcondition of `LTTBlockSorter::sort` for a strict weak
ordering: after the pivot-placement step, every slot below the final pivot
slot compares strictly below the pivot slot value, and no slot above it
compares below the pivot slot value. -/
theorem partitionStep_parts (cmp : List Nat → List Nat → Bool) (len : Nat) (st : SortSt)
    (lo hi : Nat) (hswo : IsSWO cmp) (h : lo < hi) :
    (∀ k, lo ≤ k → k < (LTTBlockSorter.partitionStep cmp len st lo hi).2 →
      cmp (tupleAt (LTTBlockSorter.partitionStep cmp len st lo hi).1.store len k)
        (tupleAt (LTTBlockSorter.partitionStep cmp len st lo hi).1.store len
          (LTTBlockSorter.partitionStep cmp len st lo hi).2) = true) ∧
    (∀ k, (LTTBlockSorter.partitionStep cmp len st lo hi).2 < k → k < hi →
      cmp (tupleAt (LTTBlockSorter.partitionStep cmp len st lo hi).1.store len k)
        (tupleAt (LTTBlockSorter.partitionStep cmp len st lo hi).1.store len
          (LTTBlockSorter.partitionStep cmp len st lo hi).2) = false) := by
  have hcle := lomutoGo_cnt_le cmp len lo (hi - 1) ((hi - 1) - lo) st lo 0
  have hpart := lomutoGo_partition cmp len lo (hi - 1) ((hi - 1) - lo) st lo 0
    (by omega) (by omega) (by omega) (by omega)
  revert hpart hcle
  simp only [LTTBlockSorter.partitionStep, LTTBlockSorter.lomuto]
  intro hcle hpart
  rcases hpart with ⟨hA, hB, hC⟩
  set r := LTTBlockSorter.lomutoGo cmp len lo (hi - 1) st lo 0 ((hi - 1) - lo) with hr
  by_cases hpv : lo + r.2 = hi - 1
  · -- all elements were below the pivot: the pivot slot is the original one
    have hself : cmp (tupleAt r.1.store len (hi - 1)) (tupleAt r.1.store len (lo + r.2)) =
        false := by
      rw [hpv]
      exact hswo.irrefl _
    rw [if_neg (by rw [hself]; exact (by decide))]
    constructor
    · intro k hk1 hk2
      show cmp (tupleAt r.1.store len k) (tupleAt r.1.store len (lo + r.2)) = true
      rw [hpv, hC]
      exact hA k hk1 hk2
    · intro k hk1 hk2
      omega
  · -- the final pivot slot is strictly inside the range
    have hlt : lo + r.2 < hi - 1 := by omega
    have hBa : cmp (tupleAt r.1.store len (lo + r.2)) (tupleAt st.store len (hi - 1)) = false :=
      hB (lo + r.2) (by omega) (by omega)
    by_cases hcnd : cmp (tupleAt r.1.store len (hi - 1)) (tupleAt r.1.store len (lo + r.2)) = true
    · -- pivot is swapped into the pivot slot
      rw [if_pos hcnd]
      have hswap : ∀ k, tupleAt (doSwap len (bumpCmp r.1) (hi - 1) (lo + r.2)).store len k =
          if k = hi - 1 then tupleAt r.1.store len (lo + r.2)
          else if k = lo + r.2 then tupleAt r.1.store len (hi - 1)
          else tupleAt r.1.store len k :=
        fun k => tupleAt_swap r.1.store len (hi - 1) (lo + r.2) k
      have hpvread : tupleAt (doSwap len (bumpCmp r.1) (hi - 1) (lo + r.2)).store len
          (lo + r.2) = tupleAt st.store len (hi - 1) := by
        rw [hswap (lo + r.2), if_neg (by omega), if_pos rfl, hC]
      constructor
      · intro k hk1 hk2
        show cmp (tupleAt (doSwap len (bumpCmp r.1) (hi - 1) (lo + r.2)).store len k)
          (tupleAt (doSwap len (bumpCmp r.1) (hi - 1) (lo + r.2)).store len (lo + r.2)) = true
        rw [hpvread, hswap k, if_neg (by omega), if_neg (by omega)]
        exact hA k hk1 hk2
      · intro k hk1 hk2
        show cmp (tupleAt (doSwap len (bumpCmp r.1) (hi - 1) (lo + r.2)).store len k)
          (tupleAt (doSwap len (bumpCmp r.1) (hi - 1) (lo + r.2)).store len (lo + r.2)) = false
        rw [hpvread, hswap k]
        by_cases hkp : k = hi - 1
        · rw [if_pos hkp]
          exact hBa
        · rw [if_neg hkp, if_neg (by omega)]
          exact hB k (by omega) (by omega)
    · -- the slot at the final pivot position is equivalent to the pivot
      rw [if_neg hcnd]
      have hcf : cmp (tupleAt r.1.store len (hi - 1)) (tupleAt r.1.store len (lo + r.2)) =
          false := Bool.eq_false_iff.mpr hcnd
      rw [hC] at hcf
      constructor
      · intro k hk1 hk2
        show cmp (tupleAt r.1.store len k) (tupleAt r.1.store len (lo + r.2)) = true
        exact hswo.lt_of_lt_equiv (hA k hk1 hk2) hcf hBa
      · intro k hk1 hk2
        show cmp (tupleAt r.1.store len k) (tupleAt r.1.store len (lo + r.2)) = false
        by_cases hkp : k = hi - 1
        · rw [hkp, hC]
          exact hcf
        · exact hswo.not_lt_of_not_lt_equiv (hB k (by omega) (by omega)) hcf hBa

/-! ## Insertion sort lemmas -/

/-- The inner insertion loop only writes bytes of slots in `[lo, lo+N)`. -/
theorem insertionSortInner_frame (cmp : List Nat → List Nat → Bool) (len lo N : Nat) :
    ∀ jj st, jj < N → ∀ b, b < lo * len ∨ (lo + N) * len ≤ b →
      (LTTBlockSorter.insertionSortInner cmp len st lo jj).store b = st.store b := by
  intro jj
  induction jj with
  | zero => intro st _ b _; rfl
  | succ j ih =>
    intro st hj b hb
    simp only [LTTBlockSorter.insertionSortInner]
    by_cases hc : cmp (tupleAt st.store len (lo + j + 1)) (tupleAt st.store len (lo + j)) = true
    · rw [if_pos hc]
      rw [ih _ (by omega) b hb]
      exact swap_frame st.store len (lo + j) (lo + j + 1) b
        (slot_outside (by omega) (by omega) hb) (slot_outside (by omega) (by omega) hb)
    · rw [if_neg hc]
      rfl

/-- The inner insertion loop permutes the tuple values on `[lo, lo+n)`. -/
theorem insertionSortInner_perm (cmp : List Nat → List Nat → Bool) (len lo : Nat) :
    ∀ jj st n, jj < n →
      (tuplesOn (LTTBlockSorter.insertionSortInner cmp len st lo jj).store len lo n).Perm
        (tuplesOn st.store len lo n) := by
  intro jj
  induction jj with
  | zero => intro st n _; exact List.Perm.refl _
  | succ j ih =>
    intro st n hj
    simp only [LTTBlockSorter.insertionSortInner]
    by_cases hc : cmp (tupleAt st.store len (lo + j + 1)) (tupleAt st.store len (lo + j)) = true
    · rw [if_pos hc]
      exact (ih _ n (by omega)).trans
        (tuplesOn_swap_perm st.store len (lo + j) (lo + j + 1) lo n
          (by omega) (by omega) (by omega) (by omega))
    · rw [if_neg hc]
      exact List.Perm.refl _

/-- Correctness of the inner insertion loop: if the slots up to `T` are
pairwise ordered except around the moving slot `lo + jj`, with the bridge
and right-neighbour side conditions, then after the loop all consecutive
pairs up to `T` are ordered. -/
theorem insertionSortInner_sorted (cmp : List Nat → List Nat → Bool) (len lo : Nat)
    (hswo : IsSWO cmp) (T : Nat) :
    ∀ jj st, lo + jj ≤ T →
      (∀ k, lo ≤ k → k + 1 ≤ T → k ≠ lo + jj → k + 1 ≠ lo + jj →
        cmp (tupleAt st.store len (k + 1)) (tupleAt st.store len k) = false) →
      (lo + jj + 1 ≤ T → lo < lo + jj →
        cmp (tupleAt st.store len (lo + jj + 1)) (tupleAt st.store len (lo + jj - 1)) = false) →
      (lo + jj + 1 ≤ T →
        cmp (tupleAt st.store len (lo + jj + 1)) (tupleAt st.store len (lo + jj)) = false) →
      ∀ k, lo ≤ k → k + 1 ≤ T →
        cmp (tupleAt (LTTBlockSorter.insertionSortInner cmp len st lo jj).store len (k + 1))
          (tupleAt (LTTBlockSorter.insertionSortInner cmp len st lo jj).store len k) = false := by
  intro jj
  induction jj with
  | zero =>
    intro st hT hI1 hI2 hI3 k hk1 hk2
    show cmp (tupleAt st.store len (k + 1)) (tupleAt st.store len k) = false
    by_cases hk : k = lo
    · subst hk
      exact hI3 (by omega)
    · exact hI1 k hk1 hk2 (by omega) (by omega)
  | succ j ih =>
    intro st hT hI1 hI2 hI3 k hk1 hk2
    simp only [LTTBlockSorter.insertionSortInner]
    by_cases hc : cmp (tupleAt st.store len (lo + j + 1)) (tupleAt st.store len (lo + j)) = true
    · rw [if_pos hc]
      have hswap : ∀ k2, tupleAt (doSwap len (bumpCmp st) (lo + j) (lo + j + 1)).store len k2 =
          if k2 = lo + j then tupleAt st.store len (lo + j + 1)
          else if k2 = lo + j + 1 then tupleAt st.store len (lo + j)
          else tupleAt st.store len k2 :=
        fun k2 => tupleAt_swap st.store len (lo + j) (lo + j + 1) k2
      apply ih (doSwap len (bumpCmp st) (lo + j) (lo + j + 1)) (by omega) _ _ _ k hk1 hk2
      · -- pairs away from the new moving slot lo + j
        intro k2 hk21 hk22 hne1 hne2
        rw [hswap (k2 + 1), hswap k2]
        by_cases he1 : k2 = lo + j + 1
        · rw [if_neg (by omega), if_neg (by omega), if_neg (by omega), if_pos he1]
          have := hI2 (by omega) (by omega)
          have he : lo + (j + 1) - 1 = lo + j := by omega
          rw [he] at this
          rw [he1]
          have he2 : lo + j + 1 + 1 = lo + j + 1 + 1 := rfl
          exact this
        · rw [if_neg (by omega), if_neg (fun hh => he1 (by omega)), if_neg hne1, if_neg he1]
          exact hI1 k2 hk21 hk22 (by omega) (by omega)
      · -- the new bridge across lo + j
        intro hb1 hb2
        rw [hswap (lo + j + 1), hswap (lo + j - 1), if_neg (by omega), if_pos rfl,
          if_neg (by omega), if_neg (by omega)]
        have hx := hI1 (lo + j - 1) (by omega) (by omega) (by omega) (by omega)
        have he : lo + j - 1 + 1 = lo + j := by omega
        rw [he] at hx
        exact hx
      · -- the new right neighbour of the moving slot
        intro hb1
        rw [hswap (lo + j + 1), hswap (lo + j), if_neg (by omega), if_pos rfl, if_pos rfl]
        exact hswo.asymm hc
    · rw [if_neg hc]
      show cmp (tupleAt st.store len (k + 1)) (tupleAt st.store len k) = false
      by_cases he1 : k + 1 = lo + (j + 1)
      · have he : k = lo + j := by omega
        subst he
        exact Bool.eq_false_iff.mpr hc
      · by_cases he2 : k = lo + (j + 1)
        · subst he2
          exact hI3 (by omega)
        · exact hI1 k hk1 hk2 he2 he1

/-- The insertion sort sweep only writes bytes of slots in `[lo, lo+N)`. -/
theorem insertionSortSweep_frame (cmp : List Nat → List Nat → Bool) (len lo N : Nat) :
    ∀ rem i st, i + rem = N → ∀ b, b < lo * len ∨ (lo + N) * len ≤ b →
      (LTTBlockSorter.insertionSortSweep cmp len lo st i rem).store b = st.store b := by
  intro rem
  induction rem with
  | zero => intro i st _ b _; rfl
  | succ m ih =>
    intro i st hiN b hb
    simp only [LTTBlockSorter.insertionSortSweep]
    rw [ih (i + 1) _ (by omega) b hb]
    exact insertionSortInner_frame cmp len lo N i st (by omega) b hb

/-- The insertion sort sweep permutes the tuple values on `[lo, lo+N)`. -/
theorem insertionSortSweep_perm (cmp : List Nat → List Nat → Bool) (len lo N : Nat) :
    ∀ rem i st, i + rem = N →
      (tuplesOn (LTTBlockSorter.insertionSortSweep cmp len lo st i rem).store len lo N).Perm
        (tuplesOn st.store len lo N) := by
  intro rem
  induction rem with
  | zero => intro i st _; exact List.Perm.refl _
  | succ m ih =>
    intro i st hiN
    simp only [LTTBlockSorter.insertionSortSweep]
    exact (ih (i + 1) _ (by omega)).trans
      (insertionSortInner_perm cmp len lo i st N (by omega))

/-- Correctness of the insertion sort sweep: a sorted prefix of length `i`
extends to a fully sorted range after the remaining `N - i` insertions. -/
theorem insertionSortSweep_sorted (cmp : List Nat → List Nat → Bool) (len lo : Nat)
    (hswo : IsSWO cmp) (N : Nat) :
    ∀ rem i st, i + rem = N →
      (∀ k, lo ≤ k → k + 1 < lo + i →
        cmp (tupleAt st.store len (k + 1)) (tupleAt st.store len k) = false) →
      ∀ k, lo ≤ k → k + 1 < lo + N →
        cmp (tupleAt (LTTBlockSorter.insertionSortSweep cmp len lo st i rem).store len (k + 1))
          (tupleAt (LTTBlockSorter.insertionSortSweep cmp len lo st i rem).store len k) =
          false := by
  intro rem
  induction rem with
  | zero =>
    intro i st hiN hpre k hk1 hk2
    exact hpre k hk1 (by omega)
  | succ m ih =>
    intro i st hiN hpre k hk1 hk2
    simp only [LTTBlockSorter.insertionSortSweep]
    apply ih (i + 1) _ (by omega) _ k hk1 hk2
    intro k2 hk21 hk22
    apply insertionSortInner_sorted cmp len lo hswo (lo + i) i st (by omega)
      _ _ _ k2 hk21 (by omega)
    · intro k3 hk31 hk32 hne1 hne2
      exact hpre k3 hk31 (by omega)
    · intro hb1 hb2
      omega
    · intro hb1
      omega

/-- `insertionSort` sorts the `N` consecutive slots starting at `lo` (for a
strict weak ordering comparator). -/
theorem insertionSort_sorted (cmp : List Nat → List Nat → Bool) (len lo N : Nat)
    (hswo : IsSWO cmp) :
    ∀ st k, lo ≤ k → k + 1 < lo + N →
      cmp (tupleAt (LTTBlockSorter.insertionSort cmp len st lo N).store len (k + 1))
        (tupleAt (LTTBlockSorter.insertionSort cmp len st lo N).store len k) = false := by
  intro st k hk1 hk2
  exact insertionSortSweep_sorted cmp len lo hswo N N 0 st (by omega)
    (fun k2 _ hk22 => absurd hk22 (by omega)) k hk1 hk2

/-- `insertionSort` only writes bytes of slots in `[lo, lo+N)`. -/
theorem insertionSort_frame (cmp : List Nat → List Nat → Bool) (len lo N : Nat) :
    ∀ st b, b < lo * len ∨ (lo + N) * len ≤ b →
      (LTTBlockSorter.insertionSort cmp len st lo N).store b = st.store b := by
  intro st b hb
  exact insertionSortSweep_frame cmp len lo N N 0 st (by omega) b hb

/-- `insertionSort` permutes the tuple values on `[lo, lo+N)`. -/
theorem insertionSort_perm (cmp : List Nat → List Nat → Bool) (len lo N : Nat) :
    ∀ st, (tuplesOn (LTTBlockSorter.insertionSort cmp len st lo N).store len lo N).Perm
      (tuplesOn st.store len lo N) := by
  intro st
  exact insertionSortSweep_perm cmp len lo N N 0 st (by omega)

/-! ## Unfolding laws of the top-level sort -/

/-- Sorting an empty range is a no-op: state, bytes and counters are all
unchanged. -/
theorem sort_eq_zero (cmp : List Nat → List Nat → Bool) (len : Nat) (st : SortSt) (lo hi : Nat)
    (h : hi - lo = 0) : LTTBlockSorter.sort cmp len st lo hi = st := by
  rw [LTTBlockSorter.sort]
  split <;> first | rfl | omega

/-- Sorting a single tuple is a no-op: state, bytes and counters are all
unchanged. -/
theorem sort_eq_one (cmp : List Nat → List Nat → Bool) (len : Nat) (st : SortSt) (lo hi : Nat)
    (h : hi - lo = 1) : LTTBlockSorter.sort cmp len st lo hi = st := by
  rw [LTTBlockSorter.sort]
  split <;> first | rfl | omega

/-- A range of two tuples is handed to the specialized insertion sort. -/
theorem sort_eq_two (cmp : List Nat → List Nat → Bool) (len : Nat) (st : SortSt) (lo hi : Nat)
    (h : hi - lo = 2) :
    LTTBlockSorter.sort cmp len st lo hi = LTTBlockSorter.insertionSort cmp len st lo 2 := by
  rw [LTTBlockSorter.sort]
  split <;> first | rfl | omega

/-- A range of three tuples is handed to the specialized insertion sort. -/
theorem sort_eq_three (cmp : List Nat → List Nat → Bool) (len : Nat) (st : SortSt) (lo hi : Nat)
    (h : hi - lo = 3) :
    LTTBlockSorter.sort cmp len st lo hi = LTTBlockSorter.insertionSort cmp len st lo 3 := by
  rw [LTTBlockSorter.sort]
  split <;> first | rfl | omega

/-- A range of four tuples is handed to the specialized insertion sort. -/
theorem sort_eq_four (cmp : List Nat → List Nat → Bool) (len : Nat) (st : SortSt) (lo hi : Nat)
    (h : hi - lo = 4) :
    LTTBlockSorter.sort cmp len st lo hi = LTTBlockSorter.insertionSort cmp len st lo 4 := by
  rw [LTTBlockSorter.sort]
  split <;> first | rfl | omega

/-- A range of five or more tuples goes through the Lomuto partition and the
two recursive calls. -/
theorem sort_eq_big (cmp : List Nat → List Nat → Bool) (len : Nat) (st : SortSt) (lo hi : Nat)
    (h : 5 ≤ hi - lo) :
    LTTBlockSorter.sort cmp len st lo hi =
      if (LTTBlockSorter.partitionStep cmp len st lo hi).2 - lo >
          hi - ((LTTBlockSorter.partitionStep cmp len st lo hi).2 + 1) then
        LTTBlockSorter.sort cmp len
          (LTTBlockSorter.sort cmp len (LTTBlockSorter.partitionStep cmp len st lo hi).1
            ((LTTBlockSorter.partitionStep cmp len st lo hi).2 + 1) hi) lo
          (LTTBlockSorter.partitionStep cmp len st lo hi).2
      else
        LTTBlockSorter.sort cmp len
          (LTTBlockSorter.sort cmp len (LTTBlockSorter.partitionStep cmp len st lo hi).1 lo
            (LTTBlockSorter.partitionStep cmp len st lo hi).2)
          ((LTTBlockSorter.partitionStep cmp len st lo hi).2 + 1) hi := by
  rw [LTTBlockSorter.sort.eq_def]
  split <;> first | rfl | omega

/-- Monotonicity of the byte-outside-a-slot-range condition. -/
theorem byte_outside_mono {len lo hi lo2 hi2 b : Nat} (h1 : lo ≤ lo2) (h2 : hi2 ≤ hi)
    (hb : b < lo * len ∨ hi * len ≤ b) : b < lo2 * len ∨ hi2 * len ≤ b := by
  rcases hb with hb | hb
  · left
    have := Nat.mul_le_mul_right len h1
    omega
  · right
    have := Nat.mul_le_mul_right len h2
    omega

/-- A slot-range permutation lets each slot value on the range be traced
back to a slot value of the previous state. -/
theorem tuplesOn_perm_exists (s2 s1 : Store) (len a n : Nat)
    (hperm : (tuplesOn s2 len a n).Perm (tuplesOn s1 len a n)) :
    ∀ k, a ≤ k → k < a + n → ∃ k0, a ≤ k0 ∧ k0 < a + n ∧
      tupleAt s2 len k = tupleAt s1 len k0 := by
  intro k hk1 hk2
  have hmem : tupleAt s2 len k ∈ tuplesOn s2 len a n := by
    unfold tuplesOn
    exact List.mem_map_of_mem _ (List.mem_range'_1.mpr ⟨hk1, hk2⟩)
  have hmem2 : tupleAt s2 len k ∈ tuplesOn s1 len a n := hperm.mem_iff.mp hmem
  unfold tuplesOn at hmem2
  rcases List.mem_map.mp hmem2 with ⟨k0, hk0, heq⟩
  rcases List.mem_range'_1.mp hk0 with ⟨h1, h2⟩
  exact ⟨k0, h1, h2, heq.symm⟩

/-- `LTTBlockSorter::sort` only writes bytes of slots in `[lo, hi)`: in
particular it never touches the non-inlined region above the tuple
storage. -/
theorem sort_frame_aux (cmp : List Nat → List Nat → Bool) (len : Nat) :
    ∀ m lo hi st, hi - lo ≤ m → ∀ b, b < lo * len ∨ hi * len ≤ b →
      (LTTBlockSorter.sort cmp len st lo hi).store b = st.store b := by
  intro m
  induction m with
  | zero =>
    intro lo hi st hm b hb
    rw [sort_eq_zero cmp len st lo hi (by omega)]
  | succ m ih =>
    intro lo hi st hm b hb
    rcases Nat.lt_or_ge (hi - lo) 5 with h5 | h5
    · by_cases h0 : hi - lo = 0
      · rw [sort_eq_zero cmp len st lo hi h0]
      by_cases h1 : hi - lo = 1
      · rw [sort_eq_one cmp len st lo hi h1]
      by_cases h2 : hi - lo = 2
      · rw [sort_eq_two cmp len st lo hi h2]
        exact insertionSort_frame cmp len lo 2 st b
          (byte_outside_mono (le_refl lo) (by omega) hb)
      by_cases h3 : hi - lo = 3
      · rw [sort_eq_three cmp len st lo hi h3]
        exact insertionSort_frame cmp len lo 3 st b
          (byte_outside_mono (le_refl lo) (by omega) hb)
      have h4 : hi - lo = 4 := by omega
      rw [sort_eq_four cmp len st lo hi h4]
      exact insertionSort_frame cmp len lo 4 st b
        (byte_outside_mono (le_refl lo) (by omega) hb)
    · rw [sort_eq_big cmp len st lo hi h5]
      have hpv := partitionStep_pv_bounds cmp len st lo hi (by omega)
      split
      · rw [ih lo (LTTBlockSorter.partitionStep cmp len st lo hi).2 _ (by omega) b
          (byte_outside_mono (le_refl lo) (by omega) hb)]
        rw [ih ((LTTBlockSorter.partitionStep cmp len st lo hi).2 + 1) hi _ (by omega) b
          (byte_outside_mono (by omega) (le_refl hi) hb)]
        exact partitionStep_frame cmp len st lo hi (by omega) b hb
      · rw [ih ((LTTBlockSorter.partitionStep cmp len st lo hi).2 + 1) hi _ (by omega) b
          (byte_outside_mono (by omega) (le_refl hi) hb)]
        rw [ih lo (LTTBlockSorter.partitionStep cmp len st lo hi).2 _ (by omega) b
          (byte_outside_mono (le_refl lo) (by omega) hb)]
        exact partitionStep_frame cmp len st lo hi (by omega) b hb

/-- `LTTBlockSorter::sort` permutes the tuple values on `[lo, hi)`. -/
theorem sort_perm_aux (cmp : List Nat → List Nat → Bool) (len : Nat) :
    ∀ m lo hi st, hi - lo ≤ m →
      (tuplesOn (LTTBlockSorter.sort cmp len st lo hi).store len lo (hi - lo)).Perm
        (tuplesOn st.store len lo (hi - lo)) := by
  intro m
  induction m with
  | zero =>
    intro lo hi st hm
    rw [sort_eq_zero cmp len st lo hi (by omega)]
  | succ m ih =>
    intro lo hi st hm
    rcases Nat.lt_or_ge (hi - lo) 5 with h5 | h5
    · by_cases h0 : hi - lo = 0
      · rw [sort_eq_zero cmp len st lo hi h0]
      by_cases h1 : hi - lo = 1
      · rw [sort_eq_one cmp len st lo hi h1]
      by_cases h2 : hi - lo = 2
      · rw [sort_eq_two cmp len st lo hi h2, h2]
        exact insertionSort_perm cmp len lo 2 st
      by_cases h3 : hi - lo = 3
      · rw [sort_eq_three cmp len st lo hi h3, h3]
        exact insertionSort_perm cmp len lo 3 st
      have h4 : hi - lo = 4 := by omega
      rw [sort_eq_four cmp len st lo hi h4, h4]
      exact insertionSort_perm cmp len lo 4 st
    · rw [sort_eq_big cmp len st lo hi h5]
      have hpv := partitionStep_pv_bounds cmp len st lo hi (by omega)
      have hmain := partitionStep_perm cmp len st lo hi (by omega)
      split
      · -- sort smaller right side first, then the left side
        have hstep1 : (tuplesOn (LTTBlockSorter.sort cmp len
              (LTTBlockSorter.sort cmp len (LTTBlockSorter.partitionStep cmp len st lo hi).1
                ((LTTBlockSorter.partitionStep cmp len st lo hi).2 + 1) hi) lo
              (LTTBlockSorter.partitionStep cmp len st lo hi).2).store len lo (hi - lo)).Perm
            (tuplesOn (LTTBlockSorter.sort cmp len
              (LTTBlockSorter.partitionStep cmp len st lo hi).1
              ((LTTBlockSorter.partitionStep cmp len st lo hi).2 + 1) hi).store len lo
              (hi - lo)) := by
          apply tuplesOn_perm_extend _ _ len lo (hi - lo) lo
            (LTTBlockSorter.partitionStep cmp len st lo hi).2 (le_refl lo) (by omega) (by omega)
          · exact ih lo (LTTBlockSorter.partitionStep cmp len st lo hi).2 _ (by omega)
          · intro k hk
            exact tupleAt_congr_outside _ _ len lo
              (LTTBlockSorter.partitionStep cmp len st lo hi).2
              (fun b hb => sort_frame_aux cmp len m lo
                (LTTBlockSorter.partitionStep cmp len st lo hi).2 _ (by omega) b hb) k hk
        have hstep2 : (tuplesOn (LTTBlockSorter.sort cmp len
              (LTTBlockSorter.partitionStep cmp len st lo hi).1
              ((LTTBlockSorter.partitionStep cmp len st lo hi).2 + 1) hi).store len lo
              (hi - lo)).Perm
            (tuplesOn (LTTBlockSorter.partitionStep cmp len st lo hi).1.store len lo
              (hi - lo)) := by
          apply tuplesOn_perm_extend _ _ len lo (hi - lo)
            ((LTTBlockSorter.partitionStep cmp len st lo hi).2 + 1) hi (by omega) (by omega)
            (by omega)
          · exact ih ((LTTBlockSorter.partitionStep cmp len st lo hi).2 + 1) hi _ (by omega)
          · intro k hk
            exact tupleAt_congr_outside _ _ len
              ((LTTBlockSorter.partitionStep cmp len st lo hi).2 + 1) hi
              (fun b hb => sort_frame_aux cmp len m
                ((LTTBlockSorter.partitionStep cmp len st lo hi).2 + 1) hi _ (by omega) b hb)
              k hk
        exact (hstep1.trans hstep2).trans hmain
      · -- sort smaller left side first, then the right side
        have hstep1 : (tuplesOn (LTTBlockSorter.sort cmp len
              (LTTBlockSorter.sort cmp len (LTTBlockSorter.partitionStep cmp len st lo hi).1
                lo (LTTBlockSorter.partitionStep cmp len st lo hi).2)
              ((LTTBlockSorter.partitionStep cmp len st lo hi).2 + 1) hi).store len lo
              (hi - lo)).Perm
            (tuplesOn (LTTBlockSorter.sort cmp len
              (LTTBlockSorter.partitionStep cmp len st lo hi).1 lo
              (LTTBlockSorter.partitionStep cmp len st lo hi).2).store len lo (hi - lo)) := by
          apply tuplesOn_perm_extend _ _ len lo (hi - lo)
            ((LTTBlockSorter.partitionStep cmp len st lo hi).2 + 1) hi (by omega) (by omega)
            (by omega)
          · exact ih ((LTTBlockSorter.partitionStep cmp len st lo hi).2 + 1) hi _ (by omega)
          · intro k hk
            exact tupleAt_congr_outside _ _ len
              ((LTTBlockSorter.partitionStep cmp len st lo hi).2 + 1) hi
              (fun b hb => sort_frame_aux cmp len m
                ((LTTBlockSorter.partitionStep cmp len st lo hi).2 + 1) hi _ (by omega) b hb)
              k hk
        have hstep2 : (tuplesOn (LTTBlockSorter.sort cmp len
              (LTTBlockSorter.partitionStep cmp len st lo hi).1 lo
              (LTTBlockSorter.partitionStep cmp len st lo hi).2).store len lo (hi - lo)).Perm
            (tuplesOn (LTTBlockSorter.partitionStep cmp len st lo hi).1.store len lo
              (hi - lo)) := by
          apply tuplesOn_perm_extend _ _ len lo (hi - lo) lo
            (LTTBlockSorter.partitionStep cmp len st lo hi).2 (le_refl lo) (by omega) (by omega)
          · exact ih lo (LTTBlockSorter.partitionStep cmp len st lo hi).2 _ (by omega)
          · intro k hk
            exact tupleAt_congr_outside _ _ len lo
              (LTTBlockSorter.partitionStep cmp len st lo hi).2
              (fun b hb => sort_frame_aux cmp len m lo
                (LTTBlockSorter.partitionStep cmp len st lo hi).2 _ (by omega) b hb) k hk
        exact (hstep1.trans hstep2).trans hmain

/-- Gluing a sorted left partition, the pivot slot, and a sorted right
partition into a consecutive-sorted whole. -/
theorem glue_sorted (cmp : List Nat → List Nat → Bool) (hswo : IsSWO cmp) (len lo pv hi : Nat)
    (base r : Store)
    (hP1 : ∀ k, lo ≤ k → k < pv → cmp (tupleAt base len k) (tupleAt base len pv) = true)
    (hP2 : ∀ k, pv < k → k < hi → cmp (tupleAt base len k) (tupleAt base len pv) = false)
    (hsL : ∀ k, lo ≤ k → k + 1 < pv → cmp (tupleAt r len (k + 1)) (tupleAt r len k) = false)
    (hsR : ∀ k, pv + 1 ≤ k → k + 1 < hi → cmp (tupleAt r len (k + 1)) (tupleAt r len k) = false)
    (hpv : tupleAt r len pv = tupleAt base len pv)
    (hvL : ∀ k, lo ≤ k → k < pv → ∃ k0, lo ≤ k0 ∧ k0 < pv ∧
      tupleAt r len k = tupleAt base len k0)
    (hvR : ∀ k, pv < k → k < hi → ∃ k0, pv < k0 ∧ k0 < hi ∧
      tupleAt r len k = tupleAt base len k0) :
    ∀ k, lo ≤ k → k + 1 < hi → cmp (tupleAt r len (k + 1)) (tupleAt r len k) = false := by
  intro k hk1 hk2
  rcases Nat.lt_or_ge (k + 1) pv with hc | hc
  · exact hsL k hk1 hc
  by_cases he1 : k + 1 = pv
  · rcases hvL k hk1 (by omega) with ⟨k0, h1, h2, heq⟩
    rw [he1, hpv, heq]
    exact hswo.asymm (hP1 k0 h1 h2)
  by_cases he2 : k = pv
  · subst he2
    rcases hvR (k + 1) (by omega) (by omega) with ⟨k0, h1, h2, heq⟩
    rw [hpv, heq]
    exact hP2 k0 h1 h2
  · exact hsR k (by omega) hk2

/-- `LTTBlockSorter::sort` under a strict weak ordering leaves every pair of
consecutive slots of the sorted range ordered: `cmp` never holds of a later
slot against an earlier one. -/
theorem sort_sorted_aux (cmp : List Nat → List Nat → Bool) (len : Nat) (hswo : IsSWO cmp) :
    ∀ m lo hi st, hi - lo ≤ m → ∀ k, lo ≤ k → k + 1 < hi →
      cmp (tupleAt (LTTBlockSorter.sort cmp len st lo hi).store len (k + 1))
        (tupleAt (LTTBlockSorter.sort cmp len st lo hi).store len k) = false := by
  intro m
  induction m with
  | zero =>
    intro lo hi st hm k hk1 hk2
    omega
  | succ m ih =>
    intro lo hi st hm k hk1 hk2
    rcases Nat.lt_or_ge (hi - lo) 5 with h5 | h5
    · by_cases h0 : hi - lo = 0
      · omega
      by_cases h1 : hi - lo = 1
      · omega
      by_cases h2 : hi - lo = 2
      · rw [sort_eq_two cmp len st lo hi h2]
        exact insertionSort_sorted cmp len lo 2 hswo st k hk1 (by omega)
      by_cases h3 : hi - lo = 3
      · rw [sort_eq_three cmp len st lo hi h3]
        exact insertionSort_sorted cmp len lo 3 hswo st k hk1 (by omega)
      have h4 : hi - lo = 4 := by omega
      rw [sort_eq_four cmp len st lo hi h4]
      exact insertionSort_sorted cmp len lo 4 hswo st k hk1 (by omega)
    · rw [sort_eq_big cmp len st lo hi h5]
      have hpv := partitionStep_pv_bounds cmp len st lo hi (by omega)
      have hparts := partitionStep_parts cmp len st lo hi hswo (by omega)
      set P := LTTBlockSorter.partitionStep cmp len st lo hi with hPdef
      split
      · -- recursive call on the right side, continuation on the left side
        set s3 := LTTBlockSorter.sort cmp len P.1 (P.2 + 1) hi with hs3
        set s4 := LTTBlockSorter.sort cmp len s3 lo P.2 with hs4
        have f1 : ∀ kk, P.2 ≤ kk → tupleAt s4.store len kk = tupleAt s3.store len kk := by
          intro kk hkk
          exact tupleAt_congr_outside _ _ len lo P.2
            (fun b hb => sort_frame_aux cmp len m lo P.2 s3 (by omega) b hb) kk (Or.inr hkk)
        have f2 : ∀ kk, kk ≤ P.2 → tupleAt s3.store len kk = tupleAt P.1.store len kk := by
          intro kk hkk
          exact tupleAt_congr_outside _ _ len (P.2 + 1) hi
            (fun b hb => sort_frame_aux cmp len m (P.2 + 1) hi P.1 (by omega) b hb) kk
            (Or.inl (by omega))
        have fpv : tupleAt s4.store len P.2 = tupleAt P.1.store len P.2 :=
          (f1 P.2 (le_refl _)).trans (f2 P.2 (le_refl _))
        apply glue_sorted cmp hswo len lo P.2 hi P.1.store s4.store hparts.1 hparts.2
          _ _ fpv _ _ k hk1 hk2
        · -- the left part is sorted
          intro kk hkk1 hkk2
          exact ih lo P.2 s3 (by omega) kk hkk1 hkk2
        · -- the right part is sorted, and untouched by the second sort
          intro kk hkk1 hkk2
          rw [f1 (kk + 1) (by omega), f1 kk (by omega)]
          exact ih (P.2 + 1) hi P.1 (by omega) kk hkk1 hkk2
        · -- left values come from the left partition
          intro kk hkk1 hkk2
          have hex := tuplesOn_perm_exists _ _ len lo (P.2 - lo)
            (sort_perm_aux cmp len m lo P.2 s3 (by omega)) kk hkk1 (by omega)
          rcases hex with ⟨k0, h1, h2, heq⟩
          exact ⟨k0, h1, by omega, heq.trans (f2 k0 (by omega))⟩
        · -- right values come from the right partition
          intro kk hkk1 hkk2
          have hex := tuplesOn_perm_exists _ _ len (P.2 + 1) (hi - (P.2 + 1))
            (sort_perm_aux cmp len m (P.2 + 1) hi P.1 (by omega)) kk (by omega) (by omega)
          rcases hex with ⟨k0, h1, h2, heq⟩
          exact ⟨k0, by omega, by omega, ((f1 kk (by omega)).trans heq)⟩
      · -- recursive call on the left side, continuation on the right side
        set s3 := LTTBlockSorter.sort cmp len P.1 lo P.2 with hs3
        set s4 := LTTBlockSorter.sort cmp len s3 (P.2 + 1) hi with hs4
        have g1 : ∀ kk, kk ≤ P.2 → tupleAt s4.store len kk = tupleAt s3.store len kk := by
          intro kk hkk
          exact tupleAt_congr_outside _ _ len (P.2 + 1) hi
            (fun b hb => sort_frame_aux cmp len m (P.2 + 1) hi s3 (by omega) b hb) kk
            (Or.inl (by omega))
        have g2 : ∀ kk, P.2 ≤ kk → tupleAt s3.store len kk = tupleAt P.1.store len kk := by
          intro kk hkk
          exact tupleAt_congr_outside _ _ len lo P.2
            (fun b hb => sort_frame_aux cmp len m lo P.2 P.1 (by omega) b hb) kk (Or.inr hkk)
        have gpv : tupleAt s4.store len P.2 = tupleAt P.1.store len P.2 :=
          (g1 P.2 (le_refl _)).trans (g2 P.2 (le_refl _))
        apply glue_sorted cmp hswo len lo P.2 hi P.1.store s4.store hparts.1 hparts.2
          _ _ gpv _ _ k hk1 hk2
        · -- the left part is sorted, and untouched by the second sort
          intro kk hkk1 hkk2
          rw [g1 (kk + 1) (by omega), g1 kk (by omega)]
          exact ih lo P.2 P.1 (by omega) kk hkk1 hkk2
        · -- the right part is sorted
          intro kk hkk1 hkk2
          exact ih (P.2 + 1) hi s3 (by omega) kk hkk1 hkk2
        · -- left values come from the left partition
          intro kk hkk1 hkk2
          have hex := tuplesOn_perm_exists _ _ len lo (P.2 - lo)
            (sort_perm_aux cmp len m lo P.2 P.1 (by omega)) kk hkk1 (by omega)
          rcases hex with ⟨k0, h1, h2, heq⟩
          exact ⟨k0, h1, by omega, ((g1 kk (by omega)).trans heq)⟩
        · -- right values come from the right partition
          intro kk hkk1 hkk2
          have hex := tuplesOn_perm_exists _ _ len (P.2 + 1) (hi - (P.2 + 1))
            (sort_perm_aux cmp len m (P.2 + 1) hi s3 (by omega)) kk (by omega) (by omega)
          rcases hex with ⟨k0, h1, h2, heq⟩
          exact ⟨k0, by omega, by omega, heq.trans (g2 k0 (by omega))⟩

/-! ## Claim theorems for the in-place sort -/

/-- A concrete comparator on tuple byte strings (compares the first byte),
used to witness the sort theorems. -/
def headLt (a b : List Nat) : Bool := decide (a.headD 0 < b.headD 0)

/-- `headLt` is a strict weak ordering. -/
theorem headLt_swo : IsSWO headLt := by
  constructor
  · intro x
    simp [headLt]
  · intro x y z hxy hyz
    simp only [headLt, decide_eq_true_eq] at hxy hyz ⊢
    omega
  · intro x y z h1 h2 h3 h4
    simp only [headLt, decide_eq_false_iff_not] at h1 h2 h3 h4 ⊢
    omega

/-- C1: after `LTTBlockSorter::sort` over `begin()..end()` of a block with
`n` active tuples, under a comparator that is a strict weak ordering, every
pair of consecutive tuples `(a, b)` satisfies `!cmp(b, a)`: for all
`0 ≤ i < n - 1`, `cmp(block[i+1], block[i])` is false. -/
theorem sort_pairwise_not_inverted (cmp : List Nat → List Nat → Bool) (hswo : IsSWO cmp)
    (len : Nat) (st : SortSt) (n i : Nat) (h : i + 1 < n) :
    cmp (tupleAt (LTTBlockSorter.sort cmp len st 0 n).store len (i + 1))
      (tupleAt (LTTBlockSorter.sort cmp len st 0 n).store len i) = false :=
  sort_sorted_aux cmp len hswo n 0 n st (by omega) i (by omega) h

theorem sort_pairwise_not_inverted_witness :
    IsSWO headLt ∧ 1 + 1 < 3 ∧
      headLt (tupleAt (LTTBlockSorter.sort headLt 1 ⟨fun b => 9 - b, 0, 0⟩ 0 3).store 1 (1 + 1))
        (tupleAt (LTTBlockSorter.sort headLt 1 ⟨fun b => 9 - b, 0, 0⟩ 0 3).store 1 1) = false :=
  ⟨headLt_swo, by omega,
    sort_pairwise_not_inverted headLt headLt_swo 1 ⟨fun b => 9 - b, 0, 0⟩ 3 1 (by omega)⟩

/-- C2: the in-place sort is a pure rearrangement: the multiset of tuples in
the sorted range equals the multiset before sorting, and in particular the
tuple count is unchanged. -/
theorem sort_is_permutation (cmp : List Nat → List Nat → Bool) (len : Nat) (st : SortSt)
    (n : Nat) :
    (tuplesOn (LTTBlockSorter.sort cmp len st 0 n).store len 0 n).Perm
      (tuplesOn st.store len 0 n) ∧
    (tuplesOn (LTTBlockSorter.sort cmp len st 0 n).store len 0 n).length =
      (tuplesOn st.store len 0 n).length := by
  have h := sort_perm_aux cmp len n 0 n st (by omega)
  simp only [Nat.sub_zero] at h
  exact ⟨h, h.length_eq⟩

/-- C8: sorting 0 or 1 tuples is a no-op with no comparator calls and no
swaps (the state, including both ghost counters, is returned unchanged);
sorting exactly 2 tuples invokes the comparator exactly once; ranges of 3 or
4 tuples are handed to the specialized insertion sort rather than the
quicksort partition. -/
theorem sort_small_sizes (cmp : List Nat → List Nat → Bool) (len : Nat) (st : SortSt)
    (lo hi : Nat) :
    (hi - lo = 0 ∨ hi - lo = 1 → LTTBlockSorter.sort cmp len st lo hi = st) ∧
    (hi - lo = 2 → (LTTBlockSorter.sort cmp len st lo hi).compares = st.compares + 1) ∧
    (hi - lo = 3 → LTTBlockSorter.sort cmp len st lo hi =
      LTTBlockSorter.insertionSort cmp len st lo 3) ∧
    (hi - lo = 4 → LTTBlockSorter.sort cmp len st lo hi =
      LTTBlockSorter.insertionSort cmp len st lo 4) := by
  refine ⟨?_, ?_, ?_, ?_⟩
  · rintro (h | h)
    · exact sort_eq_zero cmp len st lo hi h
    · exact sort_eq_one cmp len st lo hi h
  · intro h
    rw [sort_eq_two cmp len st lo hi h]
    show (LTTBlockSorter.insertionSortInner cmp len st lo 1).compares = st.compares + 1
    simp only [LTTBlockSorter.insertionSortInner]
    split <;> rfl
  · intro h
    exact sort_eq_three cmp len st lo hi h
  · intro h
    exact sort_eq_four cmp len st lo hi h

theorem sort_small_sizes_witness :
    LTTBlockSorter.sort headLt 1 ⟨fun b => b, 0, 0⟩ 0 1 = ⟨fun b => b, 0, 0⟩ ∧
    (LTTBlockSorter.sort headLt 1 ⟨fun b => b, 0, 0⟩ 0 2).compares = 0 + 1 := by
  have h1 := sort_small_sizes headLt 1 ⟨fun b => b, 0, 0⟩ 0 1
  have h2 := sort_small_sizes headLt 1 ⟨fun b => b, 0, 0⟩ 0 2
  exact ⟨h1.1 (Or.inr rfl), h2.2.1 rfl⟩

/-- C9: the element swap touches no byte outside the two exchanged tuple
slots; sorting the `n` tuple slots leaves every byte from offset `n * len`
upward (in particular the whole non-inlined region, which lies above the
tuple region) byte-for-byte unchanged; and each tuple, string-ref fields
included, travels intact: every output slot holds the unmodified bytes of
some input slot, so every string ref still points at its original
non-inlined object. -/
theorem sort_preserves_non_inlined_region (cmp : List Nat → List Nat → Bool) (len : Nat)
    (st : SortSt) (n : Nat) :
    (∀ s i j b, ¬ (i * len ≤ b ∧ b < i * len + len) → ¬ (j * len ≤ b ∧ b < j * len + len) →
      LTTBlockSorter.swap s len i j b = s b) ∧
    (∀ b, n * len ≤ b → (LTTBlockSorter.sort cmp len st 0 n).store b = st.store b) ∧
    (∀ i, i < n → ∃ j, j < n ∧
      tupleAt (LTTBlockSorter.sort cmp len st 0 n).store len i = tupleAt st.store len j) := by
  refine ⟨fun s i j b hbi hbj => swap_frame s len i j b hbi hbj, ?_, ?_⟩
  · intro b hb
    exact sort_frame_aux cmp len n 0 n st (by omega) b (Or.inr hb)
  · intro i hi
    have h := sort_perm_aux cmp len n 0 n st (by omega)
    simp only [Nat.sub_zero] at h
    rcases tuplesOn_perm_exists _ _ len 0 n h i (by omega) (by omega) with ⟨j, _, hj2, heq⟩
    exact ⟨j, by omega, heq⟩

theorem sort_preserves_non_inlined_region_witness :
    (LTTBlockSorter.sort headLt 1 ⟨fun b => b, 0, 0⟩ 0 2).store 7 = 7 :=
  (sort_preserves_non_inlined_region headLt 1 ⟨fun b => b, 0, 0⟩ 2).2.1 7 (by omega)

/-! ## The two Phase-1 sorting strategies -/

/-- Transitivity of the complement of a strict weak ordering. -/
theorem IsSWO.nlt_trans {cmp : List Nat → List Nat → Bool} (h : IsSWO cmp)
    {a b c : List Nat} (h1 : cmp b a = false) (h2 : cmp c b = false) : cmp c a = false := by
  cases hca : cmp c a
  · rfl
  · cases hab : cmp a b
    · have := h.lt_of_lt_equiv hca hab h1
      rw [h2] at this
      exact absurd this (by decide)
    · have := h.trans c a b hca hab
      rw [h2] at this
      exact absurd this (by decide)

/-- Length of a slot-range listing. -/
theorem tuplesOn_length (s : Store) (len lo n : Nat) : (tuplesOn s len lo n).length = n := by
  simp [tuplesOn]

/-- Reading one entry of a slot-range listing. -/
theorem tuplesOn_get (s : Store) (len lo n i : Nat) (hh : i < (tuplesOn s len lo n).length) :
    (tuplesOn s len lo n).get ⟨i, hh⟩ = tupleAt s len (lo + i) := by
  simp [tuplesOn, tupleAt, List.getElem_range']

/-- Modelled from the spec: the alternative Phase-1 strategy builds a vector
of tuple handles from the block, sorts the handles with a general sort
(`std::sort`, whose only guarantee is a sorted permutation of the handles),
copies the non-inlined region wholesale via `copyNonInlinedData`, and
re-inserts each tuple in handle order via
`insertTupleRelocateNonInlinedFields` into a fresh block; the implementation
of the two block operations is not part of the sources, and per the spec the
resulting block's tuple ordering is exactly the sorted handle sequence.
`isStdSortOutput cmp inp out` therefore says that `out` is a possible output
ordering of that strategy on input tuples `inp`. -/
def isStdSortOutput (cmp : List Nat → List Nat → Bool) (inp out : List (List Nat)) : Prop :=
  out.Perm inp ∧ out.Chain' (fun a b => cmp b a = false)

/-- The in-place sort's output listing is consecutive-sorted. -/
theorem sort_output_chain (cmp : List Nat → List Nat → Bool) (len : Nat) (st : SortSt)
    (n : Nat) (hswo : IsSWO cmp) :
    (tuplesOn (LTTBlockSorter.sort cmp len st 0 n).store len 0 n).Chain'
      (fun a b => cmp b a = false) := by
  rw [List.chain'_iff_get]
  intro i hi
  rw [tuplesOn_get, tuplesOn_get]
  have hlen := tuplesOn_length (LTTBlockSorter.sort cmp len st 0 n).store len 0 n
  simp only [Nat.zero_add]
  exact sort_sorted_aux cmp len hswo n 0 n st (le_refl _) i (by omega) (by omega)

/-- C3 counterexample: with the always-false comparator (a valid strict weak
ordering under which all tuples are equivalent) on a two-tuple block, the
reversed listing is a legitimate `std::sort` output for the handle-sorting
strategy, but the in-place quicksort leaves the block in its original
order: the two Phase-1 strategies need not produce identical orderings. -/
theorem strategies_differ_counterexample :
    isStdSortOutput (fun _ _ => false) (tuplesOn (fun b => b) 1 0 2) [[1], [0]] ∧
    tuplesOn (LTTBlockSorter.sort (fun _ _ => false) 1 ⟨fun b => b, 0, 0⟩ 0 2).store 1 0 2 ≠
      [[1], [0]] := by
  constructor
  · refine ⟨by decide, ?_⟩
    simp [List.chain'_cons]
  · rw [sort_eq_two (fun _ _ => false) 1 ⟨fun b => b, 0, 0⟩ 0 2 rfl]
    decide

/-- C3 (amended): if the comparator is additionally antisymmetric (a strict
total order: incomparable tuples are equal), then the in-place quicksort and
any run of the sort-handles-and-repack strategy produce identical output
tuple orderings. -/
theorem strategies_agree (cmp : List Nat → List Nat → Bool) (hswo : IsSWO cmp)
    (hanti : ∀ x y : List Nat, cmp x y = false → cmp y x = false → x = y)
    (len : Nat) (st : SortSt) (n : Nat) (out2 : List (List Nat))
    (hout : isStdSortOutput cmp (tuplesOn st.store len 0 n) out2) :
    tuplesOn (LTTBlockSorter.sort cmp len st 0 n).store len 0 n = out2 := by
  have hperm1 := sort_perm_aux cmp len n 0 n st (le_refl _)
  simp only [Nat.sub_zero] at hperm1
  have hchain1 := sort_output_chain cmp len st n hswo
  rcases hout with ⟨hperm2, hchain2⟩
  haveI : IsTrans (List Nat) (fun a b : List Nat => cmp b a = false) :=
    ⟨fun a b c h1 h2 => hswo.nlt_trans h1 h2⟩
  haveI : IsAntisymm (List Nat) (fun a b : List Nat => cmp b a = false) :=
    ⟨fun a b h1 h2 => (hanti b a h1 h2).symm⟩
  have hs1 : List.Sorted (fun a b : List Nat => cmp b a = false)
      (tuplesOn (LTTBlockSorter.sort cmp len st 0 n).store len 0 n) :=
    List.chain'_iff_pairwise.mp hchain1
  have hs2 : List.Sorted (fun a b : List Nat => cmp b a = false) out2 :=
    List.chain'_iff_pairwise.mp hchain2
  exact List.eq_of_perm_of_sorted (hperm1.trans hperm2.symm) hs1 hs2

/-- The lexicographic order on tuple byte strings, a strict total order used
to witness the amended equivalence. -/
def lexLt (a b : List Nat) : Bool := decide (a < b)

/-- `lexLt` is a strict weak ordering. -/
theorem lexLt_swo : IsSWO lexLt := by
  constructor
  · intro x
    simp [lexLt]
  · intro x y z h1 h2
    simp only [lexLt, decide_eq_true_eq] at h1 h2 ⊢
    exact lt_trans h1 h2
  · intro x y z h1 h2 h3 h4
    simp only [lexLt, decide_eq_false_iff_not] at h1 h2 h3 h4 ⊢
    have hxy : x = y := le_antisymm (le_of_not_lt h2) (le_of_not_lt h1)
    subst hxy
    exact ⟨h3, h4⟩

/-- `lexLt` is antisymmetric: incomparable tuples are equal. -/
theorem lexLt_total : ∀ x y : List Nat, lexLt x y = false → lexLt y x = false → x = y := by
  intro x y h1 h2
  simp only [lexLt, decide_eq_false_iff_not] at h1 h2
  exact le_antisymm (le_of_not_lt h2) (le_of_not_lt h1)

theorem strategies_agree_witness :
    tuplesOn (LTTBlockSorter.sort lexLt 1 ⟨fun b => b, 0, 0⟩ 0 2).store 1 0 2 = [[0], [1]] :=
  strategies_agree lexLt lexLt_swo lexLt_total 1 ⟨fun b => b, 0, 0⟩ 2 [[0], [1]]
    ⟨by decide, by simp [List.chain'_cons]; decide⟩

/-! ## The block iterator -/

/-- `LargeTempTableBlock::LttBlockIterator`: a tuple length (the source's
`int m_tupleLength`) and a raw tuple address (`char* m_tupleAddress`),
modelled as integers. -/
structure LttBlockIterator where
  tupleLength : Int
  tupleAddress : Int

namespace LttBlockIterator

/-- The default constructor: tuple length 0 and a null address. -/
def defaultIter : LttBlockIterator := { tupleLength := 0, tupleAddress := 0 }

/-- `operator+=` / binary `operator+` by an integer offset:
`m_tupleAddress += n * m_tupleLength`. -/
def addInt (it : LttBlockIterator) (n : Int) : LttBlockIterator :=
  { it with tupleAddress := it.tupleAddress + n * it.tupleLength }

/-- `operator-=` / binary `operator-` by an integer offset:
`m_tupleAddress -= n * m_tupleLength`. -/
def subInt (it : LttBlockIterator) (n : Int) : LttBlockIterator :=
  { it with tupleAddress := it.tupleAddress - n * it.tupleLength }

/-- `operator*`: the reference to the raw tuple header is identified with
the tuple address it designates. -/
def deref (it : LttBlockIterator) : Int :=
  it.tupleAddress

/-- `operator[]`: `LttBlockIterator temp{*this + n}; return *temp;`. -/
def index (it : LttBlockIterator) (n : Int) : Int :=
  (it.addInt n).deref

/-- `operator==` compares only the tuple addresses. -/
def beq (a b : LttBlockIterator) : Bool :=
  decide (a.tupleAddress = b.tupleAddress)

/-- `operator<` compares the tuple addresses. -/
def lt (a b : LttBlockIterator) : Bool :=
  decide (a.tupleAddress < b.tupleAddress)

/-- `operator-` between two iterators: the byte distance divided by the
LEFT operand's own `m_tupleLength` (C++ division truncates toward zero,
`Int.tdiv`).  A zero tuple length makes the division undefined behaviour,
modelled as `none`. -/
def diff (a b : LttBlockIterator) : Option Int :=
  if a.tupleLength = 0 then none
  else some (Int.tdiv (a.tupleAddress - b.tupleAddress) a.tupleLength)

end LttBlockIterator

/-- An iterator created from a block whose storage starts at `base`,
positioned on tuple index `k` (as produced by `begin()` and iterator
arithmetic). -/
def mkBlockIter (len base k : Int) : LttBlockIterator :=
  { tupleLength := len, tupleAddress := base + k * len }

/-- Difference of two same-block iterators with positive tuple length is the
tuple-index distance. -/
theorem mkBlockIter_diff (len base i j : Int) (hlen : 0 < len) :
    LttBlockIterator.diff (mkBlockIter len base i) (mkBlockIter len base j) = some (i - j) := by
  simp only [LttBlockIterator.diff, mkBlockIter]
  rw [if_neg (by omega)]
  have hnum : base + i * len - (base + j * len) = (i - j) * len := by ring
  rw [hnum, Int.mul_tdiv_cancel _ (by omega)]

/-- C6: the block iterator satisfies the random-access laws: `(it + n) - n`
compares equal to `it`; `it[n] == *(it + n)`; and for same-block iterators
`a < b` holds if and only if `(b - a) > 0`, where the difference is the byte
distance divided by the tuple length. -/
theorem iterator_random_access_laws (len base n i j : Int) (hlen : 0 < len) :
    LttBlockIterator.beq
      (LttBlockIterator.subInt (LttBlockIterator.addInt (mkBlockIter len base i) n) n)
      (mkBlockIter len base i) = true ∧
    LttBlockIterator.index (mkBlockIter len base i) n =
      LttBlockIterator.deref (LttBlockIterator.addInt (mkBlockIter len base i) n) ∧
    LttBlockIterator.diff (mkBlockIter len base j) (mkBlockIter len base i) = some (j - i) ∧
    (LttBlockIterator.lt (mkBlockIter len base i) (mkBlockIter len base j) = true ↔
      0 < j - i) := by
  refine ⟨?_, rfl, mkBlockIter_diff len base j i hlen, ?_⟩
  · show decide _ = true
    rw [decide_eq_true_eq]
    show base + i * len + n * len - n * len = base + i * len
    ring
  · show decide _ = true ↔ _
    rw [decide_eq_true_eq]
    show base + i * len < base + j * len ↔ 0 < j - i
    constructor
    · intro h
      have h2 : i * len < j * len := by omega
      have := (mul_lt_mul_right hlen).mp h2
      omega
    · intro h
      have h2 : i < j := by omega
      have := (mul_lt_mul_right hlen).mpr h2
      omega

theorem iterator_random_access_laws_witness :
    LttBlockIterator.beq
      (LttBlockIterator.subInt (LttBlockIterator.addInt (mkBlockIter 2 100 0) 5) 5)
      (mkBlockIter 2 100 0) = true ∧
    LttBlockIterator.index (mkBlockIter 2 100 0) 5 =
      LttBlockIterator.deref (LttBlockIterator.addInt (mkBlockIter 2 100 0) 5) ∧
    LttBlockIterator.diff (mkBlockIter 2 100 3) (mkBlockIter 2 100 0) = some (3 - 0) ∧
    (LttBlockIterator.lt (mkBlockIter 2 100 0) (mkBlockIter 2 100 3) = true ↔
      (0 : Int) < 3 - 0) :=
  iterator_random_access_laws 2 100 5 0 3 (by omega)

/-- C10: the iterator difference divides by the left operand's own tuple
length; two default-constructed iterators have tuple length 0, so their
difference is a division by zero (undefined, `none`); the difference is
well-defined and equals the tuple-index distance for iterators created from
a block with the same positive tuple length. -/
theorem default_iterator_diff :
    LttBlockIterator.defaultIter.tupleLength = 0 ∧
    LttBlockIterator.diff LttBlockIterator.defaultIter LttBlockIterator.defaultIter = none ∧
    (∀ len base i j : Int, 0 < len →
      LttBlockIterator.diff (mkBlockIter len base i) (mkBlockIter len base j) =
        some (i - j)) :=
  ⟨rfl, rfl, fun len base i j hlen => mkBlockIter_diff len base i j hlen⟩

theorem default_iterator_diff_witness :
    LttBlockIterator.diff (mkBlockIter 3 40 6) (mkBlockIter 3 40 2) = some (6 - 2) :=
  default_iterator_diff.2.2 3 40 6 2 (by omega)

/-! ## Pin and unpin -/

/-- The pin state of a block (`bool m_isPinned`). -/
structure PinBlock where
  isPinned : Bool

namespace LargeTempTableBlock

/-- `LargeTempTableBlock::pin`: `assert(!m_isPinned); m_isPinned = true;`.
The failing diagnostic assertion is modelled as `none`. -/
def pin (b : PinBlock) : Option PinBlock :=
  if b.isPinned then none else some { isPinned := true }

/-- `LargeTempTableBlock::unpin`: `assert(m_isPinned); m_isPinned = false;`.
The failing diagnostic assertion is modelled as `none`. -/
def unpin (b : PinBlock) : Option PinBlock :=
  if b.isPinned then some { isPinned := false } else none

end LargeTempTableBlock

/-- C7: `pin` on an already pinned block and `unpin` on an unpinned block
each fail the diagnostic assertion; otherwise `pin` sets the pinned flag and
`unpin` clears it. -/
theorem pin_unpin_asserts (b : PinBlock) :
    (b.isPinned = true → LargeTempTableBlock.pin b = none) ∧
    (b.isPinned = false → LargeTempTableBlock.unpin b = none) ∧
    (b.isPinned = false → LargeTempTableBlock.pin b = some { isPinned := true }) ∧
    (b.isPinned = true → LargeTempTableBlock.unpin b = some { isPinned := false }) := by
  refine ⟨?_, ?_, ?_, ?_⟩ <;> intro h <;>
    simp [LargeTempTableBlock.pin, LargeTempTableBlock.unpin, h]

theorem pin_unpin_asserts_witness :
    LargeTempTableBlock.pin { isPinned := true } = none ∧
    LargeTempTableBlock.unpin { isPinned := false } = none ∧
    LargeTempTableBlock.pin { isPinned := false } = some { isPinned := true } ∧
    LargeTempTableBlock.unpin { isPinned := true } = some { isPinned := false } :=
  ⟨(pin_unpin_asserts { isPinned := true }).1 rfl,
    (pin_unpin_asserts { isPinned := false }).2.1 rfl,
    (pin_unpin_asserts { isPinned := false }).2.2.1 rfl,
    (pin_unpin_asserts { isPinned := true }).2.2.2 rfl⟩

/-! ## Tuple insertion (capacity refusal) -/

/-- A source tuple to be inserted: `L` bytes of inline body and the list of
non-inlined objects (byte blobs) it references. -/
structure SourceTuple where
  inlineBytes : List Nat
  objs : List (List Nat)

/-- The total non-inlined size `V` of a source tuple. -/
def SourceTuple.nonInlinedSize (t : SourceTuple) : Nat :=
  (t.objs.map List.length).sum

/-- The insertion-relevant state of a block: storage bytes, the tuple
insertion offset (low end), the non-inlined insertion offset (high end,
moving downward) and the active tuple count. -/
structure InsertBlock where
  mem : Store
  tupleInsertionPoint : Nat
  nonInlinedInsertionPoint : Nat
  activeTupleCount : Nat

/-- Write a byte string into storage at the given offset. -/
def writeBytes (m : Store) (off : Nat) (bs : List Nat) : Store :=
  fun b => if off ≤ b ∧ b < off + bs.length then bs.getD (b - off) 0 else m b

/-- Copy the non-inlined objects one by one, each time subtracting the
object size from the non-inlined insertion point and copying the object
there.  Returns the storage and the new insertion point. -/
def writeObjs (m : Store) (nip : Nat) : List (List Nat) → Store × Nat
  | [] => (m, nip)
  | o :: rest => writeObjs (writeBytes m (nip - o.length) o) (nip - o.length) rest

namespace LargeTempTableBlock

/-- Modelled from the spec: `LargeTempTableBlock::insertTuple`, whose
implementation is not among the sources (only its declaration is).  Per the
spec's layout algorithm, inserting a tuple of inline width `L` with total
non-inlined size `V` first rejects (returning false, leaving the block
unchanged) when the free gap `non_inlined_insertion_point −
tuple_insertion_point` is smaller than `(L+1) + V`; otherwise each
non-inlined object is copied below the non-inlined insertion point, the
status byte and inline body are written at the tuple insertion point, the
tuple insertion point advances by `L+1` and the active tuple count grows by
one. -/
def insertTuple (blk : InsertBlock) (t : SourceTuple) : Bool × InsertBlock :=
  if blk.nonInlinedInsertionPoint - blk.tupleInsertionPoint <
      (t.inlineBytes.length + 1) + t.nonInlinedSize then
    (false, blk)
  else
    let w := writeObjs blk.mem blk.nonInlinedInsertionPoint t.objs
    (true,
      { mem := writeBytes (writeBytes w.1 blk.tupleInsertionPoint [1])
          (blk.tupleInsertionPoint + 1) t.inlineBytes
        tupleInsertionPoint := blk.tupleInsertionPoint + (t.inlineBytes.length + 1)
        nonInlinedInsertionPoint := w.2
        activeTupleCount := blk.activeTupleCount + 1 })

end LargeTempTableBlock

/-- C5: `insertTuple` returns false exactly when the remaining gap is
smaller than `(L+1) + V`, and in that case the block is completely
unchanged (insertion points, count and all stored bytes). -/
theorem insertTuple_capacity (blk : InsertBlock) (t : SourceTuple) :
    ((LargeTempTableBlock.insertTuple blk t).1 = false ↔
      blk.nonInlinedInsertionPoint - blk.tupleInsertionPoint <
        (t.inlineBytes.length + 1) + t.nonInlinedSize) ∧
    ((LargeTempTableBlock.insertTuple blk t).1 = false →
      (LargeTempTableBlock.insertTuple blk t).2 = blk) := by
  by_cases h : blk.nonInlinedInsertionPoint - blk.tupleInsertionPoint <
      (t.inlineBytes.length + 1) + t.nonInlinedSize
  · simp [LargeTempTableBlock.insertTuple, h]
  · simp [LargeTempTableBlock.insertTuple, h]

theorem insertTuple_capacity_witness :
    (LargeTempTableBlock.insertTuple
      { mem := fun _ => 0, tupleInsertionPoint := 10, nonInlinedInsertionPoint := 12,
        activeTupleCount := 3 }
      { inlineBytes := [5, 6], objs := [] }).1 = false ∧
    (LargeTempTableBlock.insertTuple
      { mem := fun _ => 0, tupleInsertionPoint := 10, nonInlinedInsertionPoint := 12,
        activeTupleCount := 3 }
      { inlineBytes := [5, 6], objs := [] }).2 =
      { mem := fun _ => 0, tupleInsertionPoint := 10, nonInlinedInsertionPoint := 12,
        activeTupleCount := 3 } := by
  have h := insertTuple_capacity
    { mem := fun _ => 0, tupleInsertionPoint := 10, nonInlinedInsertionPoint := 12,
      activeTupleCount := 3 }
    { inlineBytes := [5, 6], objs := [] }
  have hf := h.1.mpr (by decide)
  exact ⟨hf, h.2 hf⟩

/-! ## Release and relocation round trip -/

/-- Modelled from the spec: one column field of a stored tuple, either an
inline value or a string ref holding the absolute address of a non-inlined
object inside the block. -/
inductive ColumnField where
  | inl (v : Nat)
  | ref (addr : Int)

/-- A stored tuple is its list of column fields. -/
abbrev StoredTuple := List ColumnField

/-- Modelled from the spec: the relocation-relevant state of a resident
block: the base address of its storage, the stored tuples (whose string
refs hold absolute addresses into the same storage), and the payload bytes
indexed by offset from the base. -/
structure RelocBlock where
  base : Int
  tuples : List StoredTuple
  payload : Int → Nat

/-- Rewrite one field by the relocation delta: inline values are untouched,
string refs are shifted. -/
def relocateField (d : Int) : ColumnField → ColumnField
  | .inl v => .inl v
  | .ref a => .ref (a + d)

namespace LargeTempTableBlock

/-- Modelled from the spec: `relocateNonInlinedFields` walks every tuple
rewriting each string ref by the delta (implementation not among the
sources). -/
def relocateNonInlinedFields (d : Int) (ts : List StoredTuple) : List StoredTuple :=
  ts.map fun t => t.map (relocateField d)

/-- Modelled from the spec: `releaseData` returns ownership of the storage
bytes. -/
def releaseData (b : RelocBlock) : Int → Nat :=
  b.payload

/-- Modelled from the spec: `setData(origAddress, storage)` installs the
reloaded buffer (here given together with its new base address) and rewrites
every string ref by `newBase − origAddress`. -/
def setData (b : RelocBlock) (origAddress newBase : Int) (storage : Int → Nat) : RelocBlock :=
  { base := newBase
    payload := storage
    tuples := relocateNonInlinedFields (newBase - origAddress) b.tuples }

end LargeTempTableBlock

/-- The observable value of one column: an inline field reads its value, a
string ref reads the non-inlined object bytes found at its address inside
the block (offset `addr − base` from the storage base). -/
def readField (b : RelocBlock) : ColumnField → Nat ⊕ (Nat → Nat)
  | .inl v => Sum.inl v
  | .ref a => Sum.inr fun k => b.payload (a - b.base + (k : Int))

/-- The observable column values of every iterator-visible tuple of the
block, in order. -/
def readBlock (b : RelocBlock) : List (List (Nat ⊕ (Nat → Nat))) :=
  b.tuples.map fun t => t.map (readField b)

/-- The field stored at tuple index `ti`, column index `fi`. -/
def fieldAt (ts : List StoredTuple) (ti fi : Nat) : Option ColumnField :=
  ts[ti]?.bind fun t => t[fi]?

/-- Relocation acts fieldwise. -/
theorem fieldAt_reloc (d : Int) (ts : List StoredTuple) (ti fi : Nat) :
    fieldAt (LargeTempTableBlock.relocateNonInlinedFields d ts) ti fi =
      (fieldAt ts ti fi).map (relocateField d) := by
  unfold fieldAt LargeTempTableBlock.relocateNonInlinedFields
  rw [List.getElem?_map]
  cases ts[ti]? with
  | none => rfl
  | some t => simp [List.getElem?_map]

/-- C4: after `releaseData` followed by `setData(orig_base, new_buf)` with
the same payload bytes now based at a possibly different address, every
iterator-visible tuple's observable column values (including non-inlined
data read through string refs) equal those before the release; and the
stored fields differ from the originals only in the string-ref fields, each
shifted by exactly the address delta `newBase − origBase`. -/
theorem setData_round_trip (b : RelocBlock) (newBase : Int) :
    readBlock (LargeTempTableBlock.setData b b.base newBase
      (LargeTempTableBlock.releaseData b)) = readBlock b ∧
    (LargeTempTableBlock.setData b b.base newBase
      (LargeTempTableBlock.releaseData b)).tuples.length = b.tuples.length ∧
    (∀ ti fi v, fieldAt b.tuples ti fi = some (.inl v) →
      fieldAt (LargeTempTableBlock.setData b b.base newBase
        (LargeTempTableBlock.releaseData b)).tuples ti fi = some (.inl v)) ∧
    (∀ ti fi a, fieldAt b.tuples ti fi = some (.ref a) →
      fieldAt (LargeTempTableBlock.setData b b.base newBase
        (LargeTempTableBlock.releaseData b)).tuples ti fi =
        some (.ref (a + (newBase - b.base)))) := by
  have hfield : ∀ f, readField (LargeTempTableBlock.setData b b.base newBase
      (LargeTempTableBlock.releaseData b)) (relocateField (newBase - b.base) f) =
      readField b f := by
    intro f
    cases f with
    | inl v => rfl
    | ref a =>
      simp only [readField, relocateField, LargeTempTableBlock.setData,
        LargeTempTableBlock.releaseData]
      congr 1
      funext k
      congr 1
      ring
  refine ⟨?_, ?_, ?_, ?_⟩
  · show (LargeTempTableBlock.relocateNonInlinedFields (newBase - b.base) b.tuples).map _ =
      b.tuples.map _
    unfold LargeTempTableBlock.relocateNonInlinedFields
    rw [List.map_map]
    apply List.map_congr_left
    intro t _
    show (t.map (relocateField (newBase - b.base))).map _ = _
    rw [List.map_map]
    apply List.map_congr_left
    intro f _
    exact hfield f
  · show (LargeTempTableBlock.relocateNonInlinedFields (newBase - b.base) b.tuples).length = _
    unfold LargeTempTableBlock.relocateNonInlinedFields
    rw [List.length_map]
  · intro ti fi v h
    show fieldAt (LargeTempTableBlock.relocateNonInlinedFields (newBase - b.base) b.tuples)
      ti fi = _
    rw [fieldAt_reloc, h]
    rfl
  · intro ti fi a h
    show fieldAt (LargeTempTableBlock.relocateNonInlinedFields (newBase - b.base) b.tuples)
      ti fi = _
    rw [fieldAt_reloc, h]
    rfl

theorem setData_round_trip_witness :
    fieldAt (LargeTempTableBlock.setData
      { base := 100, tuples := [[.inl 7, .ref 130]], payload := fun _ => 3 } 100 200
      (LargeTempTableBlock.releaseData
        { base := 100, tuples := [[.inl 7, .ref 130]], payload := fun _ => 3 })).tuples 0 1 =
      some (.ref (130 + (200 - 100))) :=
  (setData_round_trip { base := 100, tuples := [[.inl 7, .ref 130]], payload := fun _ => 3 }
    200).2.2.2 0 1 130 rfl
